import Mathlib

/-!
line-cleaner: in-place line deduplication.

A shallow embedding of `src/main.cpp`.

* Bytes are `Fin 256`; a file content, a line and the output stream are lists of bytes.
* `uint64_t` / `size_t` values are natural numbers; the hash arithmetic is reduced
  modulo `2^64` explicitly.  Index arithmetic on the slot table cannot overflow for a
  table that fits in memory, so it is left unreduced.
* `std::vector<char>` is a list together with its capacity.  The capacity a vector gets
  when it has to reallocate is chosen by the standard library, not by the program, so
  it is a parameter `grow : old capacity → required size → new capacity`.
* A path is the list of its bytes; the path operations of the standard library follow
  ISO C++17 for POSIX paths.  The filesystem is an explicit state: what each path names,
  and which opens and renames the environment lets succeed.  Writes to an open stream
  are taken to succeed; the source does not check them.
-/

/-- One byte of a file. -/
abbrev Byte := Fin 256

/-- The constant `BATCH_SIZE` of the source. -/
def BATCH_SIZE : Nat := 4096

/-- The cast `static_cast<int64_t>` of a 64-bit pattern (two's complement). -/
def to_int64 (x : Nat) : Int :=
  if x % 2 ^ 64 < 2 ^ 63 then ((x % 2 ^ 64 : Nat) : Int)
  else ((x % 2 ^ 64 : Nat) : Int) - 2 ^ 64

/-- The implicit conversion of an `int64_t` argument to a `uint64_t` parameter. -/
def to_uint64 (i : Int) : Nat := (i % 2 ^ 64).toNat

/-- The `for` loop of `fast_hash`: `k` iterations are left, `i` is the loop index and
`hash` the accumulator; each iteration does `hash ^= str[i]; hash *= 0x100000001b3`
in 64-bit unsigned arithmetic. -/
def fast_hash_loop (str : List Byte) : Nat → Nat → Nat → Nat
  | 0, _, hash => hash
  | k + 1, i, hash =>
    fast_hash_loop str k (i + 1) (((hash ^^^ (str.getD i 0).val) * 0x100000001b3) % 2 ^ 64)

/-- The function `fast_hash`: the loop runs for `i < min(8, str.size())`, starting from
`0xcbf29ce484222325`, and the result is cast to `int64_t`. -/
def fast_hash (str : List Byte) : Int :=
  to_int64 (fast_hash_loop str (min 8 str.length) 0 0xcbf29ce484222325)

/-- The class `FixedHashSet`: the slot vector and the index mask. -/
structure FixedHashSet where
  slots_ : List Nat
  mask_ : Nat
deriving DecidableEq, Repr

/-- Search for the least `k` at or above the given one with `c ≤ 2 ^ k`. -/
def ceil_log2_from (c : Nat) : Nat → Nat → Nat
  | 0, k => k
  | fuel + 1, k => if c ≤ 2 ^ k then k else ceil_log2_from c fuel (k + 1)

/-- The exact integer ceiling of the base-2 logarithm of `c ≥ 1`: the least `k` with
`c ≤ 2 ^ k` (one exists below `c`, so `c` rounds of search are enough).  This is what the
specification reads `ceil(log2(c))` as.  The source computes the exponent in `double`
(see `FixedHashSet.construct`); the two agree where the double logarithm is exact, as at
every power of two and so at 1024. -/
def ceil_log2 (c : Nat) : Nat := ceil_log2_from c c 0

/-- The table `FixedHashSet(capacity)` holds when the exponent computed in `double` is
the exact ceiling `ceil_log2 capacity`, the shift stays in range and the allocation
succeeds, as for the hint 1024 of `dedupe_to_writer`: `size = 1ull << exponent`, all
slots zero, `mask_ = size - 1`. -/
def FixedHashSet.create (capacity : Nat) : FixedHashSet :=
  let size := (1 <<< ceil_log2 capacity) % 2 ^ 64
  { slots_ := List.replicate size 0, mask_ := size - 1 }

/-- Search for the least `d` at or above the given one with `c / 2 ^ d < 2 ^ 53`. -/
def dropped_bits_from (c : Nat) : Nat → Nat → Nat
  | 0, d => d
  | fuel + 1, d => if c / 2 ^ d < 2 ^ 53 then d else dropped_bits_from c fuel (d + 1)

/-- The number of low bits of `c` that do not fit the 53-bit significand of a `double`:
the least `d` with `c / 2 ^ d < 2 ^ 53`. -/
def dropped_bits (c : Nat) : Nat := dropped_bits_from c c 0

/-- The conversion of a `size_t` value to `double` that `std::log2(capacity)` applies to
its integer argument (IEEE 754 binary64, round to nearest, ties to even).  The result is
again an integer: values below `2 ^ 53` are kept, larger ones keep their 53 leading bits,
the bits below being rounded away. -/
def to_double (c : Nat) : Nat :=
  if dropped_bits c = 0 then c
  else if 2 ^ (dropped_bits c - 1) < c % 2 ^ dropped_bits c ∨
      (c % 2 ^ dropped_bits c = 2 ^ (dropped_bits c - 1) ∧
        (c / 2 ^ dropped_bits c) % 2 = 1) then
    (c / 2 ^ dropped_bits c + 1) * 2 ^ dropped_bits c
  else (c / 2 ^ dropped_bits c) * 2 ^ dropped_bits c

/-- The constructor `FixedHashSet(capacity)` (lines 34-38) over what the platform
supplies: `lg d` is the value `static_cast<size_t>(std::ceil(std::log2(d)))` takes at the
double `d`, given by the mathematical library, and `limit` is the largest number of slots
`slots_.resize` can allocate.  The result is `none` when the constructor yields no
defined table: the shift count of `1ull << exponent` is 64 or more, which the language
leaves undefined, or `resize` throws. -/
def FixedHashSet.construct (lg : Nat → Nat) (limit : Nat) (capacity : Nat) :
    Option FixedHashSet :=
  if 64 ≤ lg (to_double capacity) then none
  else if limit < 1 <<< lg (to_double capacity) then none
  else some { slots_ := List.replicate (1 <<< lg (to_double capacity)) 0,
              mask_ := (1 <<< lg (to_double capacity)) - 1 }

/-- The probe loop of `FixedHashSet::insert`: `k` iterations are left and `idx` is the
slot looked at.  With no iteration left the fallback `slots_[idx] = hash` runs. -/
def FixedHashSet.insert_loop (s : FixedHashSet) (hash : Nat) : Nat → Nat → Bool × FixedHashSet
  | 0, idx => (true, { s with slots_ := s.slots_.set idx hash })
  | k + 1, idx =>
    if s.slots_.getD idx 0 = 0 then (true, { s with slots_ := s.slots_.set idx hash })
    else if s.slots_.getD idx 0 = hash then (false, s)
    else FixedHashSet.insert_loop s hash k ((idx + 1) &&& s.mask_)

/-- The method `FixedHashSet::insert`: the result and the table afterwards.  The loop
runs `slots_.size()` times from `idx = hash & mask_`. -/
def FixedHashSet.insert (s : FixedHashSet) (hash : Nat) : Bool × FixedHashSet :=
  FixedHashSet.insert_loop s hash s.slots_.length (hash &&& s.mask_)

/-- The function `std::isspace` in the "C" locale: space, `\t`, `\n`, `\v`, `\f`, `\r`. -/
def isspace (c : Byte) : Bool := c.val = 32 || (9 ≤ c.val && c.val ≤ 13)

/-- The erase of the trailing whitespace run of a line (lines 72-73). -/
def strip (line : List Byte) : List Byte := (line.reverse.dropWhile isspace).reverse

/-- The successive results of `std::getline` on a stream holding `rest`, where `cur`
holds (in reverse) the bytes already extracted for the current line.  A line ends at
`\n`, which is dropped; at end of input a last line is produced only when at least one
byte was extracted for it. -/
def getlines_from : List Byte → List Byte → List (List Byte)
  | cur, [] => if cur = [] then [] else [cur.reverse]
  | cur, c :: rest =>
    if c = 10 then cur.reverse :: getlines_from [] rest else getlines_from (c :: cur) rest

/-- All lines `while (std::getline(in, line))` iterates over. -/
def getlines (content : List Byte) : List (List Byte) := getlines_from [] content

/-- A `std::vector<char>`: its elements and its capacity. -/
structure CharVector where
  data : List Byte
  capacity : Nat
deriving DecidableEq, Repr

/-- Appending to a vector (`push_back`, `insert` at the end): the capacity is kept when
the new size fits, otherwise the library picks a new one. -/
def CharVector.append (grow : Nat → Nat → Nat) (v : CharVector) (xs : List Byte) : CharVector :=
  { data := v.data ++ xs,
    capacity := if v.data.length + xs.length ≤ v.capacity then v.capacity
                else grow v.capacity (v.data.length + xs.length) }

/-- The variables of the loop of `dedupe_to_writer`: the set `seen`, the vector `batch`
and the bytes written to `out` so far. -/
structure LoopState where
  seen : FixedHashSet
  batch : CharVector
  out : List Byte
deriving DecidableEq, Repr

/-- Lines 80-88 of `dedupe_to_writer`, on the vector `batch` and the stream `out`: when
`batch.size() + line.size() + 1 > batch.capacity()` the batch is written and cleared;
then a `\n` is pushed if the batch is not empty; then the line is appended. -/
def batch_line (grow : Nat → Nat → Nat) (bo : CharVector × List Byte) (line : List Byte) :
    CharVector × List Byte :=
  let flush : Bool := decide (bo.1.data.length + line.length + 1 > bo.1.capacity)
  let out := if flush then bo.2 ++ bo.1.data else bo.2
  let batch : CharVector := if flush then { bo.1 with data := [] } else bo.1
  let batch := if batch.data ≠ [] then batch.append grow [10] else batch
  (batch.append grow line, out)

/-- One iteration of the `while` loop of `dedupe_to_writer` on the line `raw` just read:
strip, skip if empty, hash, skip if `insert` returns false, else batch the line. -/
def dedupe_step (grow : Nat → Nat → Nat) (st : LoopState) (raw : List Byte) : LoopState :=
  let line := strip raw
  if line = [] then st
  else
    let hash := fast_hash line
    let r := st.seen.insert (to_uint64 hash)
    if r.1 = false then { st with seen := r.2 }
    else
      let bo := batch_line grow (st.batch, st.out) line
      { seen := r.2, batch := bo.1, out := bo.2 }

/-- The state before the first iteration: `seen(1024)`, an empty batch with
`BATCH_SIZE` bytes reserved, and the stream as the caller passed it. -/
def dedupe_init (out : List Byte) : LoopState :=
  { seen := FixedHashSet.create 1024, batch := { data := [], capacity := BATCH_SIZE }, out := out }

/-- The function `dedupe_to_writer`.  `src` is the content of the file at `src_path`, or
`none` when it cannot be opened; `out` holds the bytes already in the stream.  The result
is the returned flag and the bytes in the stream afterwards. -/
def dedupe_to_writer (grow : Nat → Nat → Nat) (src : Option (List Byte)) (out : List Byte) :
    Bool × List Byte :=
  match src with
  | none => (false, out)
  | some content =>
    let st := (getlines content).foldl (dedupe_step grow) (dedupe_init out)
    (true, if st.batch.data ≠ [] then st.out ++ st.batch.data else st.out)

/-- The value `insert` receives for a line: `fast_hash(line)` converted to `uint64_t`. -/
def fingerprint (line : List Byte) : Nat := to_uint64 (fast_hash line)

/-- Lines after stripping, the empty ones removed. -/
def strip_lines (raws : List (List Byte)) : List (List Byte) :=
  (raws.map strip).filter (fun l => decide (l ≠ []))

/-- The lines of the input after stripping, the empty ones removed: what reaches line 77. -/
def stripped_lines (content : List Byte) : List (List Byte) :=
  strip_lines (getlines content)

/-- The bytes in the stream once the batch is written after the loop (lines 91-92). -/
def final_write (bo : CharVector × List Byte) : List Byte :=
  if bo.1.data ≠ [] then bo.2 ++ bo.1.data else bo.2

/-- The lines forwarded to the batch, out of the stripped non-empty lines `ls`, by a loop
that starts with the table `s`: those for which `insert` returns `true`. -/
def forward_lines : FixedHashSet → List (List Byte) → List (List Byte)
  | _, [] => []
  | s, l :: t =>
    if (s.insert (fingerprint l)).1 then l :: forward_lines (s.insert (fingerprint l)).2 t
    else forward_lines (s.insert (fingerprint l)).2 t

/-- The lines `dedupe_to_writer` forwards for a file content. -/
def forwarded (content : List Byte) : List (List Byte) :=
  forward_lines (FixedHashSet.create 1024) (stripped_lines content)

/-- What the loop hands to the batch: a non-empty line without `\n` whose last byte is
not whitespace. -/
def GoodLine (l : List Byte) : Prop :=
  l ≠ [] ∧ (10 : Byte) ∉ l ∧ ∀ c, l.getLast? = some c → isspace c = false

/-- The relation between two consecutive output bytes: a `\n` follows only a byte that
is not whitespace. -/
def NewlineRule (a b : Byte) : Prop := b = 10 → isspace a = false

/-- An output with no empty line and no line ending in whitespace: every `\n` directly
follows a non-whitespace byte, the first byte is not `\n` and the last byte is not
whitespace. -/
def CleanOutput (x : List Byte) : Prop :=
  List.Chain' NewlineRule x ∧ x.head? ≠ some 10 ∧ ∀ c, x.getLast? = some c → isspace c = false

/-- The bytes written so far followed by the bytes waiting in the batch. -/
def pending (bo : CharVector × List Byte) : List Byte := bo.2 ++ bo.1.data

/-- Lines joined by single `\n` bytes, with no trailing newline. -/
def join_lines : List (List Byte) → List Byte
  | [] => []
  | [l] => l
  | l :: l2 :: t => l ++ 10 :: join_lines (l2 :: t)

/-- The lines kept by fingerprint deduplication as the specification words it: a line is
dropped when its `fast_hash` is that of an earlier line (`E` holds the earlier hashes). -/
def first_by_fingerprint : List Int → List (List Byte) → List (List Byte)
  | _, [] => []
  | E, l :: t =>
    if fast_hash l ∈ E then first_by_fingerprint E t
    else l :: first_by_fingerprint (fast_hash l :: E) t

/-- The output the specification expects for a file content. -/
def expected_output (content : List Byte) : List Byte :=
  join_lines (first_by_fingerprint [] (stripped_lines content))

/-- 64-bit FNV-1a as the specification words it: start from `0xcbf29ce484222325`; for
each byte, xor the byte in, then multiply by `0x100000001b3` modulo `2 ^ 64`. -/
def fnv1a_64 (bytes : List Byte) : Nat :=
  bytes.foldl (fun h c => ((h ^^^ c.val) * 0x100000001b3) % 2 ^ 64) 0xcbf29ce484222325

/-- Results of a run of `insert` calls, in order, the table being threaded through. -/
def insert_results : FixedHashSet → List Nat → List Bool
  | _, [] => []
  | s, h :: t => (s.insert h).1 :: insert_results (s.insert h).2 t

/-- The table after a run of `insert` calls. -/
def insert_all : FixedHashSet → List Nat → FixedHashSet
  | s, [] => s
  | s, h :: t => insert_all (s.insert h).2 t

/-- A table of `n` empty slots with mask `n - 1`. -/
def FixedHashSet.fresh (n : Nat) : FixedHashSet :=
  { slots_ := List.replicate n 0, mask_ := n - 1 }

/-- First-occurrence flags of a sequence, given the values `E` that came before it:
the flag of an element is `true` when it is neither in `E` nor earlier in the sequence. -/
def first_flags : List Nat → List Nat → List Bool
  | _, [] => []
  | E, h :: t => decide (h ∉ E) :: first_flags (h :: E) t

/-- The state of a `2 ^ k`-slot table that has received exactly the values of `E` and
never overflowed: occupied slots hold values of `E`, every value of `E` is met by its
probe sequence before any empty slot, and the empty slots are as many as the table size
minus the number of distinct values; no value is the empty marker `0`. -/
def TableInv (k : Nat) (s : FixedHashSet) (E : List Nat) : Prop :=
  s.slots_.length = 2 ^ k ∧ s.mask_ = 2 ^ k - 1 ∧
  (∀ p, s.slots_.getD p 0 ≠ 0 → s.slots_.getD p 0 ∈ E) ∧
  (∀ v, v ∈ E → ∃ d, d < 2 ^ k ∧ s.slots_.getD ((v % 2 ^ k + d) % 2 ^ k) 0 = v ∧
      ∀ j, j < d → s.slots_.getD ((v % 2 ^ k + j) % 2 ^ k) 0 ≠ 0) ∧
  s.slots_.count 0 + E.toFinset.card = 2 ^ k ∧
  (∀ v, v ∈ E → v ≠ 0)

/-- A path, as the bytes of its native string (`/` is 47, `.` is 46). -/
abbrev PathName := List Byte

/-- The member `path::filename` of the standard library, for POSIX paths: the part after
the last `/`. -/
def filename (p : PathName) : PathName := (p.reverse.takeWhile (fun c => decide (c ≠ 47))).reverse

/-- The member `path::extension` of the standard library (ISO C++17, fs.path.decompose):
empty when the file name is `.` or `..`, or has no period other than a leading one;
otherwise the part of the file name from its last period on. -/
def extension (p : PathName) : PathName :=
  if filename p = [46] ∨ filename p = [46, 46] then []
  else if (46 : Byte) ∈ filename p then
    if ((filename p).reverse.takeWhile (fun c => decide (c ≠ 46))).length + 1
        = (filename p).length then []
    else 46 :: ((filename p).reverse.takeWhile (fun c => decide (c ≠ 46))).reverse
  else []

/-- The member `path::replace_extension` of the standard library (ISO C++17,
fs.path.modifiers): the extension is removed, a period is appended when the replacement
is not empty and does not begin with one, then the replacement is appended. -/
def replace_extension (p replacement : PathName) : PathName :=
  p.take (p.length - (extension p).length)
    ++ (if replacement ≠ [] ∧ replacement.head? ≠ some 46 then [46] else [])
    ++ replacement

/-- The function `temp_path`: the original path with its extension replaced by `.tmp`. -/
def temp_path (original : PathName) : PathName := replace_extension original [46, 116, 109, 112]

/-- What a path names: a regular file with its content, or a directory. -/
inductive Entry where
  | file (content : List Byte)
  | directory
deriving DecidableEq, Repr

/-- A filesystem state: what each path names (`none` when nothing exists there), and
whether the environment lets a path be opened for writing, be opened for reading, and
be renamed onto another.  Distinct paths name distinct files (no links). -/
structure FileSystem where
  entries : PathName → Option Entry
  can_write : PathName → Bool
  can_read : PathName → Bool
  can_rename : PathName → PathName → Bool

/-- The filesystem with the regular file `content` stored at `p`. -/
def FileSystem.store (fs : FileSystem) (p : PathName) (content : List Byte) : FileSystem :=
  { fs with entries := fun q => if q = p then some (Entry.file content) else fs.entries q }

/-- Opening `std::ofstream(p, binary | trunc)`: fails on a directory or when the
environment refuses; otherwise the file is created or truncated. -/
def FileSystem.open_trunc (fs : FileSystem) (p : PathName) : Option FileSystem :=
  if fs.can_write p = true ∧ fs.entries p ≠ some Entry.directory then some (fs.store p [])
  else none

/-- Opening `std::ifstream(p)`: the content to be read, or `none` when the stream is
not open.  A directory can be opened, and every read from it fails, so that no line is
read. -/
def FileSystem.open_read (fs : FileSystem) (p : PathName) : Option (List Byte) :=
  match fs.entries p with
  | some (Entry.file content) => if fs.can_read p = true then some content else none
  | some Entry.directory => if fs.can_read p = true then some [] else none
  | none => none

/-- The effect of a successful `fs::rename(src, dst)`: `dst` names what `src` named and
`src` names nothing; renaming a path onto itself changes nothing. -/
def FileSystem.renamed (fs : FileSystem) (src dst : PathName) : FileSystem :=
  { fs with entries := fun q =>
      if q = dst then fs.entries src else if q = src then none else fs.entries q }

/-- The function `fs::exists`. -/
def FileSystem.exists_path (fs : FileSystem) (p : PathName) : Bool := (fs.entries p).isSome

/-- The function `fs::is_directory`. -/
def FileSystem.is_directory (fs : FileSystem) (p : PathName) : Bool :=
  decide (fs.entries p = some Entry.directory)

/-- The function `fs::file_size` on a regular file. -/
def FileSystem.file_size (fs : FileSystem) (p : PathName) : Nat :=
  match fs.entries p with
  | some (Entry.file content) => content.length
  | _ => 0

/-- The function `atomic_dedupe`: the returned flag and the filesystem afterwards.  The
source is read after the temporary file has been opened and truncated; the bytes written
to the temporary file are stored when it is flushed and closed. -/
def atomic_dedupe (grow : Nat → Nat → Nat) (fs : FileSystem) (path_str : PathName) :
    Bool × FileSystem :=
  if !fs.exists_path path_str || fs.is_directory path_str || fs.file_size path_str == 0 then
    (true, fs)
  else
    match fs.open_trunc (temp_path path_str) with
    | none => (false, fs)
    | some fs1 =>
      let r := dedupe_to_writer grow (fs1.open_read path_str) []
      if r.1 = false then (false, fs1)
      else
        let fs2 := fs1.store (temp_path path_str) r.2
        if fs2.can_rename (temp_path path_str) path_str = true then
          (true, fs2.renamed (temp_path path_str) path_str)
        else (false, fs2)

/-- A filesystem holding one regular file, `a.tmp` with the content `x`, in which every
open succeeds and every rename succeeds or fails as `rename_ok` says. -/
def tmp_source_fs (rename_ok : Bool) : FileSystem :=
  { entries := fun q => if q = [97, 46, 116, 109, 112] then some (Entry.file [120]) else none,
    can_write := fun _ => true,
    can_read := fun _ => true,
    can_rename := fun _ _ => rename_ok }

/-- A filesystem in which nothing exists. -/
def empty_fs : FileSystem :=
  { entries := fun _ => none,
    can_write := fun _ => true,
    can_read := fun _ => true,
    can_rename := fun _ _ => true }

/-- The loop variables of `dedupe_to_writer` after the first `n` lines of the input. -/
def state_after (grow : Nat → Nat → Nat) (content : List Byte) (n : Nat) : LoopState :=
  ((getlines content).take n).foldl (dedupe_step grow) (dedupe_init [])

/-- The batch and the stream after the lines `ls` have been forwarded, with no batch
ever above 4096 bytes: the capacity is still 4096, the stream holds the flushed batches
one after the other, the batch holds the lines not yet flushed joined by `\n`, and the
flushed groups followed by the pending lines are `ls`. -/
def BatchInv (bo : CharVector × List Byte) (ls : List (List Byte)) : Prop :=
  bo.1.capacity = 4096 ∧ bo.1.data.length ≤ 4096 ∧
  ∃ (flushed : List (List (List Byte))) (current : List (List Byte)),
    bo.2 = (flushed.map join_lines).flatten ∧ bo.1.data = join_lines current ∧
    flushed.flatten ++ current = ls ∧
    (∀ g, g ∈ flushed → (join_lines g).length ≤ 4096) ∧
    (∀ l, l ∈ current → l ≠ [])

/-! ## The slot vector -/

theorem getD_set_eq (l : List Nat) (p v : Nat) (hp : p < l.length) :
    (l.set p v).getD p 0 = v := by
  simp [List.getD_eq_getElem?_getD, hp]

theorem getD_set_ne (l : List Nat) (p q v : Nat) (h : p ≠ q) :
    (l.set p v).getD q 0 = l.getD q 0 := by
  simp [List.getD_eq_getElem?_getD, List.getElem?_set_ne h]

theorem count_zero_set (l : List Nat) (p v : Nat) (hp : l.getD p 0 = 0) (hlt : p < l.length)
    (hv : v ≠ 0) : (l.set p v).count 0 + 1 = l.count 0 := by
  induction l generalizing p with
  | nil => simp at hlt
  | cons a t ih =>
    cases p with
    | zero =>
      simp at hp
      subst hp
      simp [List.count_cons, hv]
    | succ p =>
      simp at hp hlt
      have := ih p (by simpa using hp) hlt
      simp only [List.set_cons_succ, List.count_cons]
      omega

theorem exists_zero_of_count_pos (l : List Nat) (h : 0 < l.count 0) :
    ∃ p, p < l.length ∧ l.getD p 0 = 0 := by
  have hm : (0 : Nat) ∈ l := List.count_pos_iff.mp h
  obtain ⟨p, hp, hpe⟩ := List.getElem_of_mem hm
  exact ⟨p, hp, by simp [List.getD_eq_getElem?_getD, hp, hpe]⟩

/-! ## The probe loop -/

theorem probe_index (k idx j : Nat) :
    (((idx + 1) % 2 ^ k) + j) % 2 ^ k = (idx + (j + 1)) % 2 ^ k := by
  rw [Nat.add_mod, Nat.mod_mod, ← Nat.add_mod]
  congr 1
  omega

theorem mask_index (s : FixedHashSet) (k x : Nat) (hm : s.mask_ = 2 ^ k - 1) :
    x &&& s.mask_ = x % 2 ^ k := by
  rw [hm, Nat.and_pow_two_sub_one_eq_mod]

/-- A probe that meets only occupied slots until it meets `h` reports a duplicate and
leaves the table alone. -/
theorem insert_loop_found (s : FixedHashSet) (h k : Nat) (hm : s.mask_ = 2 ^ k - 1) :
    ∀ (d fuel idx : Nat), d < fuel → idx < 2 ^ k →
      (∀ j, j ≤ d → s.slots_.getD ((idx + j) % 2 ^ k) 0 ≠ 0) →
      s.slots_.getD ((idx + d) % 2 ^ k) 0 = h →
      s.insert_loop h fuel idx = (false, s) := by
  intro d
  induction d with
  | zero =>
    intro fuel idx hf hi hnz hd
    obtain ⟨f, rfl⟩ : ∃ f, fuel = f + 1 := ⟨fuel - 1, by omega⟩
    have h0 := hnz 0 (le_refl 0)
    simp only [Nat.add_zero, Nat.mod_eq_of_lt hi] at h0 hd
    rw [FixedHashSet.insert_loop, if_neg h0, if_pos hd]
  | succ d ih =>
    intro fuel idx hf hi hnz hd
    obtain ⟨f, rfl⟩ : ∃ f, fuel = f + 1 := ⟨fuel - 1, by omega⟩
    have h0 := hnz 0 (Nat.zero_le _)
    simp only [Nat.add_zero, Nat.mod_eq_of_lt hi] at h0
    by_cases he : s.slots_.getD idx 0 = h
    · rw [FixedHashSet.insert_loop, if_neg h0, if_pos he]
    · have hrec := ih f ((idx + 1) % 2 ^ k) (by omega) (Nat.mod_lt _ (by positivity))
        (fun j hj => by rw [probe_index]; exact hnz (j + 1) (by omega))
        (by rw [probe_index]; exact hd)
      rw [FixedHashSet.insert_loop, if_neg h0, if_neg he, mask_index s k _ hm]
      exact hrec

/-- A probe that meets only slots occupied by other values until it meets an empty
slot stores `h` there and reports a first occurrence. -/
theorem insert_loop_empty (s : FixedHashSet) (h k : Nat) (hm : s.mask_ = 2 ^ k - 1) :
    ∀ (d fuel idx : Nat), d < fuel → idx < 2 ^ k →
      (∀ j, j < d → s.slots_.getD ((idx + j) % 2 ^ k) 0 ≠ 0 ∧
        s.slots_.getD ((idx + j) % 2 ^ k) 0 ≠ h) →
      s.slots_.getD ((idx + d) % 2 ^ k) 0 = 0 →
      s.insert_loop h fuel idx
        = (true, { s with slots_ := s.slots_.set ((idx + d) % 2 ^ k) h }) := by
  intro d
  induction d with
  | zero =>
    intro fuel idx hf hi _ hd
    obtain ⟨f, rfl⟩ : ∃ f, fuel = f + 1 := ⟨fuel - 1, by omega⟩
    simp only [Nat.add_zero, Nat.mod_eq_of_lt hi] at hd ⊢
    rw [FixedHashSet.insert_loop, if_pos hd]
  | succ d ih =>
    intro fuel idx hf hi hnz hd
    obtain ⟨f, rfl⟩ : ∃ f, fuel = f + 1 := ⟨fuel - 1, by omega⟩
    have h0 := hnz 0 (Nat.succ_pos _)
    simp only [Nat.add_zero, Nat.mod_eq_of_lt hi] at h0
    have hrec := ih f ((idx + 1) % 2 ^ k) (by omega) (Nat.mod_lt _ (by positivity))
      (fun j hj => by rw [probe_index]; exact hnz (j + 1) (by omega))
      (by rw [probe_index]; exact hd)
    rw [probe_index] at hrec
    rw [FixedHashSet.insert_loop, if_neg h0.1, if_neg h0.2, mask_index s k _ hm]
    exact hrec

theorem getD_lt_of_ne_zero (l : List Nat) (q : Nat) (h : l.getD q 0 ≠ 0) : q < l.length := by
  by_contra hq
  exact h (by simp [List.getD_eq_getElem?_getD, List.getElem?_eq_none (not_lt.mp hq)])

theorem getD_set_ne_zero (l : List Nat) (p q v : Nat) (h : l.getD q 0 ≠ 0) (hv : v ≠ 0) :
    (l.set p v).getD q 0 ≠ 0 := by
  by_cases hpq : p = q
  · subst hpq
    rw [getD_set_eq l p v (getD_lt_of_ne_zero l p h)]
    exact hv
  · rw [getD_set_ne l p q v hpq]
    exact h

/-! ## Inserting into a table that has not overflowed -/

theorem tableInv_fresh (k : Nat) : TableInv k (FixedHashSet.fresh (2 ^ k)) [] := by
  refine ⟨by simp [FixedHashSet.fresh], rfl, ?_, ?_, ?_, by simp⟩
  · intro p hp
    exfalso
    apply hp
    simp only [FixedHashSet.fresh, List.getD_eq_getElem?_getD]
    by_cases h : p < 2 ^ k
    · simp [List.getElem?_replicate, h]
    · simp [List.getElem?_replicate, h]
  · intro v hv
    simp at hv
  · simp [FixedHashSet.fresh]

theorem tableInv_cons_mem (k : Nat) (s : FixedHashSet) (E : List Nat) (v : Nat)
    (hI : TableInv k s E) (hv : v ∈ E) : TableInv k s (v :: E) := by
  obtain ⟨hl, hm, ha, hb, hc, hz⟩ := hI
  refine ⟨hl, hm, fun p hp => List.mem_cons_of_mem _ (ha p hp), ?_, ?_, ?_⟩
  · intro u hu
    rcases List.mem_cons.mp hu with rfl | hu
    · exact hb _ hv
    · exact hb _ hu
  · rw [List.toFinset_cons, Finset.insert_eq_of_mem (List.mem_toFinset.mpr hv)]
    exact hc
  · intro u hu
    rcases List.mem_cons.mp hu with rfl | hu
    · exact hz _ hv
    · exact hz _ hu

/-- A value the table holds is reported as a duplicate. -/
theorem insert_present (k : Nat) (s : FixedHashSet) (E : List Nat) (v : Nat)
    (hI : TableInv k s E) (hv : v ∈ E) : s.insert v = (false, s) := by
  obtain ⟨hl, hm, _, hb, _, hz⟩ := hI
  have hv0 : v ≠ 0 := hz v hv
  obtain ⟨d, hd, hdv, hch⟩ := hb v hv
  rw [FixedHashSet.insert, mask_index s k v hm, hl]
  refine insert_loop_found s v k hm d (2 ^ k) (v % 2 ^ k) hd (Nat.mod_lt _ (by positivity)) ?_ hdv
  intro j hj
  rcases Nat.lt_or_ge j d with hlt | hge
  · exact hch j hlt
  · have : j = d := le_antisymm hj hge
    subst this
    rw [hdv]
    exact hv0

theorem exists_probe_distance (n home p : Nat) (hh : home < n) (hp : p < n) :
    ∃ d, d < n ∧ (home + d) % n = p := by
  by_cases hle : home ≤ p
  · exact ⟨p - home, by omega, by rw [Nat.add_sub_cancel' hle, Nat.mod_eq_of_lt hp]⟩
  · refine ⟨p + n - home, by omega, ?_⟩
    have : home + (p + n - home) = p + n := by omega
    rw [this, Nat.add_mod_right, Nat.mod_eq_of_lt hp]

/-- A value the table does not hold is stored, while a slot is free. -/
theorem insert_absent (k : Nat) (s : FixedHashSet) (E : List Nat) (v : Nat)
    (hI : TableInv k s E) (hv : v ∉ E) (hv0 : v ≠ 0) (hcard : E.toFinset.card < 2 ^ k) :
    (s.insert v).1 = true ∧ TableInv k (s.insert v).2 (v :: E) := by
  obtain ⟨hl, hm, ha, hb, hc, hz⟩ := hI
  have hpos : 0 < 2 ^ k := by positivity
  obtain ⟨p, hp, hp0⟩ := exists_zero_of_count_pos s.slots_ (by omega)
  rw [hl] at hp
  obtain ⟨d1, hd1, hd1p⟩ := exists_probe_distance (2 ^ k) (v % 2 ^ k) p (Nat.mod_lt _ hpos) hp
  have hex : ∃ d, s.slots_.getD ((v % 2 ^ k + d) % 2 ^ k) 0 = 0 := ⟨d1, by rw [hd1p]; exact hp0⟩
  have hspec := Nat.find_spec hex
  have hmin : ∀ j, j < Nat.find hex → s.slots_.getD ((v % 2 ^ k + j) % 2 ^ k) 0 ≠ 0 :=
    fun j hj => Nat.find_min hex hj
  have hd0 : Nat.find hex < 2 ^ k :=
    lt_of_le_of_lt (Nat.find_min' hex (by rw [hd1p]; exact hp0)) hd1
  generalize Nat.find hex = d0 at hspec hmin hd0
  have hins : s.insert v
      = (true, { s with slots_ := s.slots_.set ((v % 2 ^ k + d0) % 2 ^ k) v }) := by
    rw [FixedHashSet.insert, mask_index s k v hm, hl]
    refine insert_loop_empty s v k hm d0 (2 ^ k) (v % 2 ^ k) hd0 (Nat.mod_lt _ hpos) ?_ hspec
    intro j hj
    refine ⟨hmin j hj, fun he => hv ?_⟩
    rw [← he]
    exact ha _ (hmin j hj)
  rw [hins]
  refine ⟨rfl, ?_⟩
  have hp0lt : (v % 2 ^ k + d0) % 2 ^ k < s.slots_.length := by
    rw [hl]; exact Nat.mod_lt _ hpos
  refine ⟨by simp [hl], hm, ?_, ?_, ?_, ?_⟩
  · intro q hq
    show (s.slots_.set ((v % 2 ^ k + d0) % 2 ^ k) v).getD q 0 ∈ v :: E
    by_cases hq' : (v % 2 ^ k + d0) % 2 ^ k = q
    · subst hq'
      rw [getD_set_eq _ _ _ hp0lt]
      exact List.mem_cons_self _ _
    · rw [getD_set_ne _ _ _ _ hq']
      have hq2 : (s.slots_.set ((v % 2 ^ k + d0) % 2 ^ k) v).getD q 0 ≠ 0 := hq
      rw [getD_set_ne _ _ _ _ hq'] at hq2
      exact List.mem_cons_of_mem _ (ha q hq2)
  · intro u hu
    show ∃ d, d < 2 ^ k ∧
      (s.slots_.set ((v % 2 ^ k + d0) % 2 ^ k) v).getD ((u % 2 ^ k + d) % 2 ^ k) 0 = u ∧
      ∀ j, j < d →
        (s.slots_.set ((v % 2 ^ k + d0) % 2 ^ k) v).getD ((u % 2 ^ k + j) % 2 ^ k) 0 ≠ 0
    rcases List.mem_cons.mp hu with rfl | hu
    · exact ⟨d0, hd0, getD_set_eq _ _ _ hp0lt,
        fun j hj => getD_set_ne_zero _ _ _ _ (hmin j hj) hv0⟩
    · obtain ⟨d, hd, hdu, hch⟩ := hb u hu
      refine ⟨d, hd, ?_, fun j hj => getD_set_ne_zero _ _ _ _ (hch j hj) hv0⟩
      have hne : (v % 2 ^ k + d0) % 2 ^ k ≠ (u % 2 ^ k + d) % 2 ^ k := by
        intro he
        rw [← he, hspec] at hdu
        exact hz u hu hdu.symm
      rw [getD_set_ne _ _ _ _ hne]
      exact hdu
  · show (s.slots_.set ((v % 2 ^ k + d0) % 2 ^ k) v).count 0 + (v :: E).toFinset.card = 2 ^ k
    have h1 := count_zero_set s.slots_ _ v hspec hp0lt hv0
    rw [List.toFinset_cons, Finset.card_insert_of_not_mem (by simpa using hv)]
    omega
  · intro u hu
    rcases List.mem_cons.mp hu with rfl | hu
    · exact hv0
    · exact hz u hu

theorem toFinset_middle (E t : List Nat) (h : Nat) :
    ((h :: E) ++ t).toFinset = (E ++ h :: t).toFinset := by
  ext x
  simp only [List.mem_toFinset, List.mem_append, List.mem_cons]
  tauto

theorem card_lt_of_not_mem (E t : List Nat) (h n : Nat) (hE : h ∉ E)
    (hc : (E ++ h :: t).toFinset.card ≤ n) : E.toFinset.card < n := by
  have hsub : insert h E.toFinset ⊆ (E ++ h :: t).toFinset := by
    intro x hx
    simp only [Finset.mem_insert, List.mem_toFinset, List.mem_append, List.mem_cons] at hx ⊢
    tauto
  have h1 := Finset.card_le_card hsub
  rw [Finset.card_insert_of_not_mem (by simpa using hE)] at h1
  omega

/-- While the distinct values fit in the table, the results of a run of inserts are the
first-occurrence flags of the run, and the table invariant is kept. -/
theorem insert_results_eq_flags (k : Nat) :
    ∀ (fps : List Nat) (s : FixedHashSet) (E : List Nat), TableInv k s E →
      (∀ v, v ∈ fps → v ≠ 0) → (E ++ fps).toFinset.card ≤ 2 ^ k →
      insert_results s fps = first_flags E fps ∧
        TableInv k (insert_all s fps) (fps.reverse ++ E) := by
  intro fps
  induction fps with
  | nil =>
    intro s E hI _ _
    exact ⟨rfl, by simpa [insert_all] using hI⟩
  | cons h t ih =>
    intro s E hI hnz hc
    have hnz' : ∀ v, v ∈ t → v ≠ 0 := fun v hv => hnz v (List.mem_cons_of_mem _ hv)
    have hc' : ((h :: E) ++ t).toFinset.card ≤ 2 ^ k := by rw [toFinset_middle]; exact hc
    have hrev : (h :: t).reverse ++ E = t.reverse ++ (h :: E) := by simp
    by_cases hE : h ∈ E
    · have hins := insert_present k s E h hI hE
      obtain ⟨r1, r2⟩ := ih s (h :: E) (tableInv_cons_mem k s E h hI hE) hnz' hc'
      refine ⟨?_, ?_⟩
      · simp only [insert_results, first_flags, hins, r1]
        simp [hE]
      · rw [hrev]
        simpa only [insert_all, hins] using r2
    · obtain ⟨i1, i2⟩ := insert_absent k s E h hI hE (hnz h (List.mem_cons_self _ _))
        (card_lt_of_not_mem E t h _ hE hc)
      obtain ⟨r1, r2⟩ := ih (s.insert h).2 (h :: E) i2 hnz' hc'
      refine ⟨?_, ?_⟩
      · simp only [insert_results, first_flags, i1, r1]
        simp [hE]
      · rw [hrev]
        simpa only [insert_all] using r2

theorem first_flags_length (fps : List Nat) : ∀ E, (first_flags E fps).length = fps.length := by
  induction fps with
  | nil => intro E; rfl
  | cons h t ih => intro E; simp [first_flags, ih]

theorem first_flags_getD (fps : List Nat) :
    ∀ (E : List Nat) (i : Nat) (hi : i < fps.length),
      ((first_flags E fps).getD i false = true ↔ fps[i] ∉ E ∧ fps[i] ∉ fps.take i) := by
  induction fps with
  | nil => intro E i hi; simp at hi
  | cons h t ih =>
    intro E i hi
    cases i with
    | zero => simp [first_flags]
    | succ i =>
      have hi' : i < t.length := by simpa using hi
      have := ih (h :: E) i hi'
      simp only [first_flags, List.getD_cons_succ, List.getElem_cons_succ, List.take_succ_cons,
        List.mem_cons, not_or] at this ⊢
      rw [this]
      constructor
      · rintro ⟨⟨a, b⟩, c⟩
        exact ⟨b, a, c⟩
      · rintro ⟨b, a, c⟩
        exact ⟨⟨a, b⟩, c⟩

theorem mem_of_getD_eq (l : List Nat) (p v : Nat) (h : l.getD p 0 = v) (hv : v ≠ 0) :
    v ∈ l := by
  have hp : p < l.length := getD_lt_of_ne_zero l p (by rw [h]; exact hv)
  rw [List.getD_eq_getElem?_getD, List.getElem?_eq_getElem hp, Option.getD_some] at h
  rw [← h]
  exact List.getElem_mem hp

/-- C6: for a fresh table of `n = 2 ^ k` slots and a sequence of nonzero fingerprints
with at most `n` distinct values, inserted in order, the `i`-th insert returns `true`
exactly when its fingerprint does not occur earlier in the sequence; and the values the
table holds afterwards are exactly the fingerprints of the sequence. -/
theorem insert_true_iff_first_occurrence (k : Nat) (fps : List Nat)
    (hnz : ∀ h, h ∈ fps → h ≠ 0) (hcard : fps.toFinset.card ≤ 2 ^ k) :
    (insert_results (FixedHashSet.fresh (2 ^ k)) fps).length = fps.length ∧
    (∀ (i : Nat) (hi : i < fps.length),
      ((insert_results (FixedHashSet.fresh (2 ^ k)) fps).getD i false = true ↔
        fps[i] ∉ fps.take i)) ∧
    (∀ v, v ≠ 0 → (v ∈ (insert_all (FixedHashSet.fresh (2 ^ k)) fps).slots_ ↔ v ∈ fps)) := by
  obtain ⟨h, hI⟩ := insert_results_eq_flags k fps (FixedHashSet.fresh (2 ^ k)) []
    (tableInv_fresh k) hnz (by simpa using hcard)
  rw [h]
  refine ⟨first_flags_length fps [], fun i hi => ?_, fun v hv => ⟨fun hm => ?_, fun hm => ?_⟩⟩
  · rw [first_flags_getD fps [] i hi]
    simp
  · obtain ⟨p, hp, hpe⟩ := List.getElem_of_mem hm
    have hg : (insert_all (FixedHashSet.fresh (2 ^ k)) fps).slots_.getD p 0 = v := by
      rw [List.getD_eq_getElem?_getD, List.getElem?_eq_getElem hp, Option.getD_some, hpe]
    have := hI.2.2.1 p (by rw [hg]; exact hv)
    rw [hg] at this
    simpa using this
  · obtain ⟨d, _, hd, _⟩ := hI.2.2.2.1 v (by simpa using hm)
    exact mem_of_getD_eq _ _ v hd hv

/-- Witness for C6 on a two-slot table where `1` and `3` share the home slot. -/
theorem insert_true_iff_first_occurrence_witness :
    (insert_results (FixedHashSet.fresh (2 ^ 1)) [1, 3, 1, 3]).length = [1, 3, 1, 3].length ∧
    (∀ (i : Nat) (hi : i < [1, 3, 1, 3].length),
      ((insert_results (FixedHashSet.fresh (2 ^ 1)) [1, 3, 1, 3]).getD i false = true ↔
        [1, 3, 1, 3][i] ∉ [1, 3, 1, 3].take i)) ∧
    (∀ v, v ≠ 0 →
      (v ∈ (insert_all (FixedHashSet.fresh (2 ^ 1)) [1, 3, 1, 3]).slots_ ↔ v ∈ [1, 3, 1, 3])) :=
  insert_true_iff_first_occurrence 1 [1, 3, 1, 3] (by decide) (by decide)

/-! ## The fingerprint -/

theorem fast_hash_loop_eq_foldl (str : List Byte) :
    ∀ (k i h : Nat), i + k ≤ str.length →
      fast_hash_loop str k i h
        = ((str.drop i).take k).foldl
            (fun h c => ((h ^^^ c.val) * 0x100000001b3) % 2 ^ 64) h := by
  intro k
  induction k with
  | zero => intro i h _; simp [fast_hash_loop]
  | succ k ih =>
    intro i h hik
    have hi : i < str.length := by omega
    rw [fast_hash_loop, ih (i + 1) _ (by omega), List.drop_eq_getElem_cons hi,
      List.take_succ_cons, List.foldl_cons, List.getD_eq_getElem?_getD,
      List.getElem?_eq_getElem hi, Option.getD_some]

theorem take_min_eight (s : List Byte) : s.take (min 8 s.length) = s.take 8 := by
  rcases le_total 8 s.length with h | h
  · rw [min_eq_left h]
  · rw [min_eq_right h, List.take_length, List.take_of_length_le h]

theorem fast_hash_eq_fnv (s : List Byte) :
    fast_hash s = to_int64 (fnv1a_64 (s.take 8)) := by
  rw [fast_hash, fast_hash_loop_eq_foldl s _ 0 _ (by simp), fnv1a_64, List.drop_zero,
    take_min_eight]

/-- C8: `fast_hash(s)` is `fast_hash` of the first `min(8, |s|)` bytes of `s`, namely the
64-bit FNV-1a of those bytes (cast to `int64_t`); hence two lines with the same first 8
bytes have the same fingerprint whatever follows. -/
theorem fast_hash_first_eight (s : List Byte) :
    fast_hash s = fast_hash (s.take (min 8 s.length)) ∧
    fast_hash s = to_int64 (fnv1a_64 (s.take (min 8 s.length))) ∧
    ∀ t : List Byte, s.take 8 = t.take 8 → fast_hash s = fast_hash t := by
  have hmin : s.take (min 8 s.length) = s.take 8 := take_min_eight s
  refine ⟨?_, ?_, ?_⟩
  · rw [hmin, fast_hash_eq_fnv s, fast_hash_eq_fnv (s.take 8), List.take_take, min_self]
  · rw [hmin, fast_hash_eq_fnv s]
  · intro t h
    rw [fast_hash_eq_fnv s, fast_hash_eq_fnv t, h]

theorem to_uint64_to_int64 (x : Nat) : to_uint64 (to_int64 x) = x % 2 ^ 64 := by
  unfold to_uint64 to_int64
  have hx : x % 2 ^ 64 < 2 ^ 64 := Nat.mod_lt _ (by norm_num)
  generalize x % 2 ^ 64 = m at hx
  norm_num at hx ⊢
  split <;> omega

theorem to_int64_mod (x : Nat) : to_int64 (x % 2 ^ 64) = to_int64 x := by
  unfold to_int64
  rw [Nat.mod_mod]

/-- Two lines get the same value passed to `insert` exactly when `fast_hash` agrees. -/
theorem fingerprint_eq_iff (a b : List Byte) :
    fingerprint a = fingerprint b ↔ fast_hash a = fast_hash b := by
  constructor
  · intro h
    unfold fingerprint fast_hash at h
    rw [to_uint64_to_int64, to_uint64_to_int64] at h
    unfold fast_hash
    rw [← to_int64_mod, h, to_int64_mod]
  · intro h
    unfold fingerprint
    rw [h]

theorem fingerprint_eq_zero_iff (a : List Byte) : fingerprint a = 0 ↔ fast_hash a = 0 := by
  constructor
  · intro h
    unfold fingerprint fast_hash at h
    rw [to_uint64_to_int64] at h
    unfold fast_hash
    rw [← to_int64_mod, h]
    rfl
  · intro h
    unfold fingerprint
    rw [h]
    rfl

/-! ## The empty marker and the full table -/

theorem insert_loop_zero (s : FixedHashSet) :
    ∀ (fuel idx : Nat), (s.insert_loop 0 fuel idx).1 = true := by
  intro fuel
  induction fuel with
  | zero => intro idx; rfl
  | succ f ih =>
    intro idx
    rw [FixedHashSet.insert_loop]
    by_cases h0 : s.slots_.getD idx 0 = 0
    · rw [if_pos h0]
    · rw [if_neg h0, if_neg h0]
      exact ih _

theorem forward_lines_filter_zero :
    ∀ (ls : List (List Byte)) (s : FixedHashSet),
      (forward_lines s ls).filter (fun l => decide (fast_hash l = 0))
        = ls.filter (fun l => decide (fast_hash l = 0)) := by
  intro ls
  induction ls with
  | nil => intro s; rfl
  | cons l t ih =>
    intro s
    by_cases h0 : fast_hash l = 0
    · have hf : fingerprint l = 0 := (fingerprint_eq_zero_iff l).mpr h0
      have ht : (s.insert (fingerprint l)).1 = true := by
        rw [hf]; exact insert_loop_zero s _ _
      rw [forward_lines, if_pos ht, List.filter_cons_of_pos (by simpa using h0),
        List.filter_cons_of_pos (by simpa using h0), ih]
    · rw [List.filter_cons_of_neg (by simpa using h0), forward_lines]
      split
      · rw [List.filter_cons_of_neg (by simpa using h0), ih]
      · rw [ih]

/-- C9: on every table, whatever its size and contents, `insert(0)` returns `true`;
consequently the loop body of `dedupe_to_writer` batches a line whose `fast_hash` is 0
every time it meets it, and over a whole run the forwarded lines contain every
occurrence of every such line. -/
theorem insert_zero_always_true :
    (∀ s : FixedHashSet, (s.insert 0).1 = true) ∧
    (∀ (grow : Nat → Nat → Nat) (st : LoopState) (raw : List Byte),
      strip raw ≠ [] → fast_hash (strip raw) = 0 →
      dedupe_step grow st raw
        = { seen := (st.seen.insert 0).2,
            batch := (batch_line grow (st.batch, st.out) (strip raw)).1,
            out := (batch_line grow (st.batch, st.out) (strip raw)).2 }) ∧
    (∀ content : List Byte,
      (forwarded content).filter (fun l => decide (fast_hash l = 0))
        = (stripped_lines content).filter (fun l => decide (fast_hash l = 0))) := by
  refine ⟨fun s => insert_loop_zero s _ _, ?_, fun content => forward_lines_filter_zero _ _⟩
  intro grow st raw hne h0
  have ht : (st.seen.insert 0).1 = true := insert_loop_zero _ _ _
  simp only [dedupe_step, hne, h0, if_false]
  rw [show to_uint64 0 = 0 from rfl]
  simp [ht]

theorem insert_loop_full (s : FixedHashSet) (h k : Nat) (hm : s.mask_ = 2 ^ k - 1) :
    ∀ (fuel idx : Nat), idx < 2 ^ k →
      (∀ j, j < fuel → s.slots_.getD ((idx + j) % 2 ^ k) 0 ≠ 0 ∧
        s.slots_.getD ((idx + j) % 2 ^ k) 0 ≠ h) →
      s.insert_loop h fuel idx
        = (true, { s with slots_ := s.slots_.set ((idx + fuel) % 2 ^ k) h }) := by
  intro fuel
  induction fuel with
  | zero =>
    intro idx hi _
    rw [FixedHashSet.insert_loop, Nat.add_zero, Nat.mod_eq_of_lt hi]
  | succ f ih =>
    intro idx hi hocc
    have h0 := hocc 0 (Nat.succ_pos _)
    simp only [Nat.add_zero, Nat.mod_eq_of_lt hi] at h0
    have hrec := ih ((idx + 1) % 2 ^ k) (Nat.mod_lt _ (by positivity))
      (fun j hj => by rw [probe_index]; exact hocc (j + 1) (by omega))
    rw [probe_index] at hrec
    rw [FixedHashSet.insert_loop, if_neg h0.1, if_neg h0.2, mask_index s k _ hm]
    exact hrec

/-- C10 (amended): on a table of `n = 2 ^ k` slots (mask `n - 1`) in which every slot is
occupied and none holds `h`, `insert(h)` returns `true` and changes exactly one slot,
the home slot `h & mask` to which the probe has wrapped around: it holds `h`
afterwards and every other slot is unchanged. -/
theorem insert_full_overwrites_home (k : Nat) (s : FixedHashSet) (h : Nat)
    (hl : s.slots_.length = 2 ^ k) (hm : s.mask_ = 2 ^ k - 1)
    (hocc : ∀ p, p < 2 ^ k → s.slots_.getD p 0 ≠ 0)
    (hne : ∀ p, p < 2 ^ k → s.slots_.getD p 0 ≠ h) :
    s.insert h = (true, { s with slots_ := s.slots_.set (h &&& s.mask_) h }) ∧
    h &&& s.mask_ < s.slots_.length ∧
    (s.insert h).2.slots_.getD (h &&& s.mask_) 0 = h ∧
    (∀ q, q ≠ h &&& s.mask_ → (s.insert h).2.slots_.getD q 0 = s.slots_.getD q 0) ∧
    (s.insert h).2.slots_.length = s.slots_.length := by
  have hpos : 0 < 2 ^ k := by positivity
  have hlt : h % 2 ^ k < 2 ^ k := Nat.mod_lt _ hpos
  have hins : s.insert h = (true, { s with slots_ := s.slots_.set (h &&& s.mask_) h }) := by
    rw [FixedHashSet.insert, mask_index s k h hm, hl,
      insert_loop_full s h k hm (2 ^ k) (h % 2 ^ k) hlt
        (fun j _ => ⟨hocc _ (Nat.mod_lt _ hpos), hne _ (Nat.mod_lt _ hpos)⟩),
      Nat.add_mod_right, Nat.mod_mod]
  have hidx : h &&& s.mask_ < s.slots_.length := by
    rw [mask_index s k h hm, hl]; exact hlt
  refine ⟨hins, hidx, ?_, ?_, ?_⟩
  · rw [hins]
    exact getD_set_eq _ _ _ hidx
  · intro q hq
    rw [hins]
    exact getD_set_ne _ _ _ _ (Ne.symm hq)
  · rw [hins]
    simp

/-- Witness for C10 (amended): the full two-slot table `[1, 3]` and `h = 5`. -/
theorem insert_full_overwrites_home_witness :
    FixedHashSet.insert ⟨[1, 3], 1⟩ 5
      = (true, { (⟨[1, 3], 1⟩ : FixedHashSet) with
          slots_ := (⟨[1, 3], 1⟩ : FixedHashSet).slots_.set (5 &&& 1) 5 }) :=
  (insert_full_overwrites_home 1 ⟨[1, 3], 1⟩ 5 rfl rfl (by decide) (by decide)).1

/-- C10 as stated fails: on the full table `[1, 3]` (mask 1), `insert(5)` overwrites
slot 1, the home slot `5 & 1`, and leaves slot 0, the last slot probed
(`((5 & 1) + 2 - 1) & 1 = 0`), holding `1`. -/
theorem insert_full_not_last_probed :
    FixedHashSet.insert ⟨[1, 3], 1⟩ 5 = (true, ⟨[1, 5], 1⟩) ∧
    ((5 &&& 1) + 2 - 1) &&& 1 = 0 ∧
    (FixedHashSet.insert ⟨[1, 3], 1⟩ 5).2.slots_.getD (((5 &&& 1) + 2 - 1) &&& 1) 0 ≠ 5 := by
  decide

/-! ## The loop of `dedupe_to_writer` -/

theorem strip_lines_cons_nil (raw : List Byte) (t : List (List Byte)) (h : strip raw = []) :
    strip_lines (raw :: t) = strip_lines t := by
  simp [strip_lines, h]

theorem strip_lines_cons (raw : List Byte) (t : List (List Byte)) (h : strip raw ≠ []) :
    strip_lines (raw :: t) = strip raw :: strip_lines t := by
  simp [strip_lines, h]

/-- The loop batches, in order, exactly the lines `forward_lines` selects, and threads
the table through every stripped non-empty line. -/
theorem foldl_dedupe_step (grow : Nat → Nat → Nat) :
    ∀ (raws : List (List Byte)) (st : LoopState),
      raws.foldl (dedupe_step grow) st
        = { seen := insert_all st.seen ((strip_lines raws).map fingerprint),
            batch := ((forward_lines st.seen (strip_lines raws)).foldl (batch_line grow)
              (st.batch, st.out)).1,
            out := ((forward_lines st.seen (strip_lines raws)).foldl (batch_line grow)
              (st.batch, st.out)).2 } := by
  intro raws
  induction raws with
  | nil => intro st; rfl
  | cons raw t ih =>
    intro st
    rw [List.foldl_cons, ih]
    by_cases hs : strip raw = []
    · rw [strip_lines_cons_nil raw t hs]
      simp only [dedupe_step, hs, if_true]
    · rw [strip_lines_cons raw t hs]
      by_cases hr : (st.seen.insert (fingerprint (strip raw))).1 = true
      · have hd : dedupe_step grow st raw
            = { seen := (st.seen.insert (fingerprint (strip raw))).2,
                batch := (batch_line grow (st.batch, st.out) (strip raw)).1,
                out := (batch_line grow (st.batch, st.out) (strip raw)).2 } := by
          simp only [dedupe_step, hs, if_false]
          rw [show to_uint64 (fast_hash (strip raw)) = fingerprint (strip raw) from rfl]
          simp [hr]
        rw [hd, forward_lines, if_pos hr]
        simp only [List.map_cons, insert_all, List.foldl_cons]
      · have hd : dedupe_step grow st raw
            = { st with seen := (st.seen.insert (fingerprint (strip raw))).2 } := by
          simp only [dedupe_step, hs, if_false]
          rw [show to_uint64 (fast_hash (strip raw)) = fingerprint (strip raw) from rfl]
          simp [hr]
        rw [hd, forward_lines, if_neg hr]
        simp only [List.map_cons, insert_all]

/-- The bytes `dedupe_to_writer` leaves in the stream are those of batching the
forwarded lines one after the other and writing the last batch. -/
theorem dedupe_to_writer_eq (grow : Nat → Nat → Nat) (content out : List Byte) :
    dedupe_to_writer grow (some content) out
      = (true, final_write ((forwarded content).foldl (batch_line grow)
          ({ data := [], capacity := BATCH_SIZE }, out))) := by
  simp only [dedupe_to_writer, getlines, foldl_dedupe_step]
  rfl

theorem forward_lines_sublist :
    ∀ (ls : List (List Byte)) (s : FixedHashSet), List.Sublist (forward_lines s ls) ls := by
  intro ls
  induction ls with
  | nil => intro s; exact List.Sublist.slnil
  | cons l t ih =>
    intro s
    rw [forward_lines]
    split
    · exact (ih _).cons₂ l
    · exact (ih _).cons l

/-- C4: the lines `dedupe_to_writer` forwards to the batch, in the order it forwards
them, form a subsequence of the input's lines after stripping and removal of the empty
ones: same relative order, nothing added. -/
theorem forwarded_sublist (grow : Nat → Nat → Nat) (content out : List Byte) :
    List.Sublist (forwarded content) (stripped_lines content) ∧
    dedupe_to_writer grow (some content) out
      = (true, final_write ((forwarded content).foldl (batch_line grow)
          ({ data := [], capacity := BATCH_SIZE }, out))) :=
  ⟨forward_lines_sublist _ _, dedupe_to_writer_eq grow content out⟩

/-! ## Lines -/

theorem getlines_from_no_newline :
    ∀ (rest cur : List Byte), (10 : Byte) ∉ cur →
      ∀ l, l ∈ getlines_from cur rest → (10 : Byte) ∉ l := by
  intro rest
  induction rest with
  | nil =>
    intro cur hc l hl
    rw [getlines_from] at hl
    split at hl
    · simp at hl
    · simp only [List.mem_singleton] at hl
      subst hl
      simpa using hc
  | cons c t ih =>
    intro cur hc l hl
    rw [getlines_from] at hl
    split at hl
    · rcases List.mem_cons.mp hl with rfl | hl
      · simpa using hc
      · exact ih [] (by simp) l hl
    · rename_i hne
      refine ih (c :: cur) ?_ l hl
      intro hm
      rcases List.mem_cons.mp hm with h | h
      · exact hne h.symm
      · exact hc h

theorem strip_initial (l : List Byte) : strip l <+: l := List.rdropWhile_prefix isspace l

theorem strip_idempotent (l : List Byte) : strip (strip l) = strip l :=
  List.rdropWhile_idempotent isspace l

theorem strip_goodLine (l : List Byte) (hn : (10 : Byte) ∉ l) (hs : strip l ≠ []) :
    GoodLine (strip l) := by
  refine ⟨hs, fun h => hn ((strip_initial l).subset h), ?_⟩
  intro c hc
  have h1 := List.rdropWhile_last_not isspace l hs
  rw [List.getLast?_eq_getLast _ hs] at hc
  have : (strip l).getLast hs = c := Option.some.inj hc
  rw [← this]
  simpa using h1

theorem strip_lines_good (raws : List (List Byte)) (hr : ∀ l, l ∈ raws → (10 : Byte) ∉ l) :
    ∀ l, l ∈ strip_lines raws → GoodLine l := by
  intro l hl
  simp only [strip_lines, List.mem_filter, List.mem_map, decide_eq_true_eq] at hl
  obtain ⟨⟨raw, hraw, rfl⟩, hne⟩ := hl
  exact strip_goodLine raw (hr raw hraw) hne

theorem stripped_lines_good (content : List Byte) :
    ∀ l, l ∈ stripped_lines content → GoodLine l :=
  strip_lines_good _ (fun l hl => getlines_from_no_newline content [] (by simp) l hl)

theorem forwarded_good (content : List Byte) : ∀ l, l ∈ forwarded content → GoodLine l :=
  fun l hl => stripped_lines_good content l ((forward_lines_sublist _ _).subset hl)

/-! ## The shape of the output -/

theorem final_write_eq_pending (bo : CharVector × List Byte) : final_write bo = pending bo := by
  unfold final_write pending
  split
  · rfl
  · rename_i h
    simp only [ne_eq, not_not] at h
    rw [h, List.append_nil]

/-- Batching a line appends it to the bytes written or waiting, after a `\n` or, when
the batch is empty (at the start and after each flush), directly. -/
theorem batch_line_pending (grow : Nat → Nat → Nat) (bo : CharVector × List Byte)
    (l : List Byte) :
    pending (batch_line grow bo l) = pending bo ++ l ∨
      (pending bo ≠ [] ∧ pending (batch_line grow bo l) = pending bo ++ 10 :: l) := by
  obtain ⟨⟨data, cap⟩, out⟩ := bo
  by_cases hf : data.length + l.length + 1 > cap
  · left
    simp [batch_line, pending, hf, CharVector.append]
  · by_cases hd : data = []
    · left
      subst hd
      simp only [List.length_nil, Nat.zero_add] at hf
      simp [batch_line, pending, hf, CharVector.append]
    · right
      refine ⟨by simp [pending, hd], ?_⟩
      simp [batch_line, pending, hf, hd, CharVector.append]

theorem chain_of_no_newline (l : List Byte) (h : (10 : Byte) ∉ l) :
    List.Chain' NewlineRule l := by
  induction l with
  | nil => exact List.chain'_nil
  | cons a t ih =>
    rw [List.chain'_cons']
    refine ⟨?_, ih (fun hm => h (List.mem_cons_of_mem _ hm))⟩
    intro y hy hy10
    exfalso
    apply h
    rw [← hy10]
    exact List.mem_cons_of_mem _ (List.mem_of_mem_head? hy)

theorem goodLine_head (l : List Byte) (h : GoodLine l) : l.head? ≠ some 10 := by
  intro hh
  exact h.2.1 (List.mem_of_mem_head? hh)

theorem clean_append (x l : List Byte) (hx : CleanOutput x) (hl : GoodLine l) :
    CleanOutput (x ++ l) := by
  obtain ⟨hc, hh, hlast⟩ := hx
  refine ⟨?_, ?_, ?_⟩
  · rw [List.chain'_append]
    refine ⟨hc, chain_of_no_newline l hl.2.1, ?_⟩
    intro a _ b hb hb10
    exfalso
    exact goodLine_head l hl (by rw [← hb10]; exact hb)
  · cases x with
    | nil => simpa using goodLine_head l hl
    | cons a t => simpa using hh
  · intro c hcl
    rw [List.getLast?_append_of_ne_nil _ hl.1] at hcl
    exact hl.2.2 c hcl

theorem clean_append_newline (x l : List Byte) (hx : CleanOutput x) (hne : x ≠ [])
    (hl : GoodLine l) : CleanOutput (x ++ 10 :: l) := by
  obtain ⟨hc, hh, hlast⟩ := hx
  refine ⟨?_, ?_, ?_⟩
  · rw [List.chain'_append]
    refine ⟨hc, ?_, ?_⟩
    · rw [List.chain'_cons']
      refine ⟨?_, chain_of_no_newline l hl.2.1⟩
      intro b hb hb10
      exfalso
      exact goodLine_head l hl (by rw [← hb10]; exact hb)
    · intro a ha b hb _
      exact hlast a ha
  · cases x with
    | nil => exact absurd rfl hne
    | cons a t => simpa using hh
  · intro c hcl
    rw [List.getLast?_append_of_ne_nil _ (List.cons_ne_nil _ _)] at hcl
    cases l with
    | nil => exact absurd rfl hl.1
    | cons b t =>
      rw [List.getLast?_cons_cons] at hcl
      exact hl.2.2 c hcl

theorem clean_foldl (grow : Nat → Nat → Nat) :
    ∀ (ls : List (List Byte)) (bo : CharVector × List Byte),
      (∀ l, l ∈ ls → GoodLine l) → CleanOutput (pending bo) →
      CleanOutput (pending (ls.foldl (batch_line grow) bo)) := by
  intro ls
  induction ls with
  | nil => intro bo _ h; exact h
  | cons l t ih =>
    intro bo hg hc
    rw [List.foldl_cons]
    refine ih _ (fun l' hl' => hg l' (List.mem_cons_of_mem _ hl')) ?_
    have hl := hg l (List.mem_cons_self _ _)
    rcases batch_line_pending grow bo l with h | ⟨hne, h⟩
    · rw [h]; exact clean_append _ _ hc hl
    · rw [h]; exact clean_append_newline _ _ hc hne hl

theorem isspace_newline : isspace 10 = true := by decide

/-- C5: the bytes `dedupe_to_writer` writes to an empty stream contain no empty line and
no line ending in whitespace: the output does not begin and does not end with `\n`, has
no two consecutive `\n`, every `\n` in it directly follows a non-whitespace byte (so
never a `\r`), and the last byte of a non-empty output is not whitespace. -/
theorem output_clean (grow : Nat → Nat → Nat) (content : List Byte) :
    (dedupe_to_writer grow (some content) []).2.head? ≠ some 10 ∧
    (dedupe_to_writer grow (some content) []).2.getLast? ≠ some 10 ∧
    (∀ (i : Nat) (h : i + 1 < (dedupe_to_writer grow (some content) []).2.length),
      ¬ ((dedupe_to_writer grow (some content) []).2[i] = 10 ∧
         (dedupe_to_writer grow (some content) []).2[i + 1] = 10)) ∧
    (∀ (i : Nat) (h : i + 1 < (dedupe_to_writer grow (some content) []).2.length),
      (dedupe_to_writer grow (some content) []).2[i + 1] = 10 →
        isspace (dedupe_to_writer grow (some content) []).2[i] = false) ∧
    (∀ c, (dedupe_to_writer grow (some content) []).2.getLast? = some c →
      isspace c = false) := by
  have hclean : CleanOutput (dedupe_to_writer grow (some content) []).2 := by
    rw [dedupe_to_writer_eq, final_write_eq_pending]
    exact clean_foldl grow _ _ (forwarded_good content)
      ⟨List.chain'_nil, by simp [pending], by simp [pending]⟩
  generalize (dedupe_to_writer grow (some content) []).2 = out at hclean
  obtain ⟨hc, hh, hlast⟩ := hclean
  have hidx : ∀ (i : Nat) (h : i + 1 < out.length), out[i + 1] = 10 → isspace out[i] = false := by
    intro i h h10
    have := (List.chain'_iff_get.mp hc) i (by omega)
    exact this h10
  refine ⟨hh, ?_, ?_, hidx, hlast⟩
  · intro h
    have := hlast 10 h
    rw [isspace_newline] at this
    exact Bool.noConfusion this
  · intro i h ⟨h1, h2⟩
    have := hidx i h h2
    rw [h1, isspace_newline] at this
    exact Bool.noConfusion this

/-! ## A run that fits the table and the batch -/

set_option maxRecDepth 100000 in
theorem create_1024 : FixedHashSet.create 1024 = FixedHashSet.fresh (2 ^ 10) := by
  decide

theorem card_fingerprint_le (ls : List (List Byte)) :
    (ls.map fingerprint).toFinset.card ≤ (ls.map fast_hash).toFinset.card := by
  have h : (ls.map fingerprint).toFinset = (ls.map fast_hash).toFinset.image to_uint64 := by
    ext x
    simp [fingerprint]
  rw [h]
  exact Finset.card_image_le

theorem mem_map_fingerprint_iff (l : List Byte) (EL : List (List Byte)) :
    fingerprint l ∈ EL.map fingerprint ↔ fast_hash l ∈ EL.map fast_hash := by
  simp only [List.mem_map]
  constructor
  · rintro ⟨a, ha, he⟩
    exact ⟨a, ha, (fingerprint_eq_iff a l).mp he⟩
  · rintro ⟨a, ha, he⟩
    exact ⟨a, ha, (fingerprint_eq_iff a l).mpr he⟩

/-- While the distinct fingerprints fit in the table and none is 0, the loop forwards
exactly the lines the specification keeps. -/
theorem forward_lines_eq_first (k : Nat) :
    ∀ (ls : List (List Byte)) (s : FixedHashSet) (EL : List (List Byte)),
      TableInv k s (EL.map fingerprint) → (∀ l, l ∈ ls → fast_hash l ≠ 0) →
      ((EL ++ ls).map fingerprint).toFinset.card ≤ 2 ^ k →
      forward_lines s ls = first_by_fingerprint (EL.map fast_hash) ls := by
  intro ls
  induction ls with
  | nil => intro s EL _ _ _; rfl
  | cons l t ih =>
    intro s EL hI hnz hc
    have hnz' : ∀ l', l' ∈ t → fast_hash l' ≠ 0 := fun l' h => hnz l' (List.mem_cons_of_mem _ h)
    have hc0 : (EL.map fingerprint ++ fingerprint l :: t.map fingerprint).toFinset.card ≤ 2 ^ k := by
      simpa using hc
    have hc' : (((l :: EL) ++ t).map fingerprint).toFinset.card ≤ 2 ^ k := by
      have := toFinset_middle (EL.map fingerprint) (t.map fingerprint) (fingerprint l)
      simp only [List.cons_append, List.map_cons, List.map_append] at this ⊢
      rw [this]
      exact hc0
    by_cases hE : fingerprint l ∈ EL.map fingerprint
    · have hins := insert_present k s _ _ hI hE
      have hsub : ((EL ++ t).map fingerprint).toFinset
          ⊆ (EL.map fingerprint ++ fingerprint l :: t.map fingerprint).toFinset := by
        intro x hx
        simp only [List.map_append, List.mem_toFinset, List.mem_append, List.mem_cons] at hx ⊢
        tauto
      rw [forward_lines, first_by_fingerprint, hins,
        if_pos ((mem_map_fingerprint_iff l EL).mp hE)]
      simp only [Bool.false_eq_true, if_false]
      exact ih s EL hI hnz' (le_trans (Finset.card_le_card hsub) hc0)
    · have hf0 : fingerprint l ≠ 0 :=
        fun h => hnz l (List.mem_cons_self _ _) ((fingerprint_eq_zero_iff l).mp h)
      obtain ⟨i1, i2⟩ := insert_absent k s _ _ hI hE hf0
        (card_lt_of_not_mem _ _ _ _ hE hc0)
      rw [forward_lines, first_by_fingerprint, if_pos i1,
        if_neg (fun h => hE ((mem_map_fingerprint_iff l EL).mpr h))]
      congr 1
      exact ih _ (l :: EL) i2 hnz' hc'

theorem forwarded_eq_first (content : List Byte)
    (hcard : ((stripped_lines content).map fast_hash).toFinset.card ≤ 1024)
    (hnz : ∀ l, l ∈ stripped_lines content → fast_hash l ≠ 0) :
    forwarded content = first_by_fingerprint [] (stripped_lines content) := by
  rw [forwarded, create_1024]
  exact forward_lines_eq_first 10 _ _ [] (tableInv_fresh 10) hnz
    (le_trans (card_fingerprint_le _) (by simpa using hcard))

theorem join_lines_cons (l : List Byte) (t : List (List Byte)) (ht : t ≠ []) :
    join_lines (l :: t) = l ++ 10 :: join_lines t := by
  cases t with
  | nil => exact absurd rfl ht
  | cons a t => rfl

theorem join_lines_append (a b : List (List Byte)) (ha : a ≠ []) (hb : b ≠ []) :
    join_lines (a ++ b) = join_lines a ++ 10 :: join_lines b := by
  induction a with
  | nil => exact absurd rfl ha
  | cons x a ih =>
    cases a with
    | nil => simp [join_lines_cons x b hb, join_lines]
    | cons y a =>
      have h1 := ih (List.cons_ne_nil _ _)
      rw [List.cons_append, join_lines_cons x _ (by simp), h1,
        join_lines_cons x _ (List.cons_ne_nil _ _)]
      simp

theorem join_lines_eq_nil (a : List (List Byte)) (hne : ∀ l, l ∈ a → l ≠ [])
    (h : join_lines a = []) : a = [] := by
  cases a with
  | nil => rfl
  | cons x t =>
    exfalso
    cases t with
    | nil => exact hne x (List.mem_cons_self _ _) h
    | cons y t =>
      rw [join_lines_cons x _ (List.cons_ne_nil _ _)] at h
      simp at h

/-- While the joined lines stay below the capacity no flush happens: the batch holds the
lines joined by `\n` and nothing is written. -/
theorem foldl_batch_line_fits (grow : Nat → Nat → Nat) (cap : Nat) (out : List Byte) :
    ∀ (ls pre : List (List Byte)), (∀ l, l ∈ pre → l ≠ []) → (∀ l, l ∈ ls → l ≠ []) →
      (join_lines (pre ++ ls)).length + 1 ≤ cap →
      ls.foldl (batch_line grow) ({ data := join_lines pre, capacity := cap }, out)
        = ({ data := join_lines (pre ++ ls), capacity := cap }, out) := by
  intro ls
  induction ls with
  | nil => intro pre _ _ _; simp
  | cons l t ih =>
    intro pre hpre hls hlen
    have hsplit : pre ++ l :: t = (pre ++ [l]) ++ t := by simp
    have hmono : (join_lines (pre ++ [l])).length ≤ (join_lines (pre ++ l :: t)).length := by
      rw [hsplit]
      cases t with
      | nil => simp
      | cons y t =>
        rw [join_lines_append (pre ++ [l]) (y :: t) (by simp) (List.cons_ne_nil _ _)]
        simp
    have hstep : batch_line grow ({ data := join_lines pre, capacity := cap }, out) l
        = ({ data := join_lines (pre ++ [l]), capacity := cap }, out) := by
      by_cases hp : pre = []
      · subst hp
        have h1 : l.length + 1 ≤ cap := by
          have : join_lines ([] ++ [l]) = l := rfl
          rw [this] at hmono
          omega
        have h2 : ¬ (l.length + 1 > cap) := by omega
        have h3 : l.length ≤ cap := by omega
        simp [batch_line, CharVector.append, join_lines, h2, h3]
      · have hj : join_lines (pre ++ [l]) = join_lines pre ++ 10 :: l := by
          rw [join_lines_append pre [l] hp (List.cons_ne_nil _ _)]
          rfl
        have hd : join_lines pre ≠ [] := fun h => hp (join_lines_eq_nil pre hpre h)
        rw [hj] at hmono ⊢
        simp only [List.length_append, List.length_cons] at hmono
        have h2 : ¬ ((join_lines pre).length + l.length + 1 > cap) := by omega
        have h3 : (join_lines pre).length + 1 ≤ cap := by omega
        have h4 : (join_lines pre).length + 1 + l.length ≤ cap := by omega
        simp [batch_line, CharVector.append, h2, h3, h4, hd]
    rw [List.foldl_cons, hstep, hsplit]
    refine ih (pre ++ [l]) ?_ (fun x hx => hls x (List.mem_cons_of_mem _ hx))
      (by rw [← hsplit]; exact hlen)
    intro x hx
    rcases List.mem_append.mp hx with h | h
    · exact hpre x h
    · simp only [List.mem_singleton] at h
      rw [h]; exact hls l (List.mem_cons_self _ _)

/-- When the joined forwarded lines are at most 4095 bytes, the stream receives them
joined by `\n`, in one write after the loop. -/
theorem dedupe_to_writer_fits (grow : Nat → Nat → Nat) (content out : List Byte)
    (hlen : (join_lines (forwarded content)).length ≤ 4095) :
    dedupe_to_writer grow (some content) out = (true, out ++ join_lines (forwarded content)) := by
  have h := foldl_batch_line_fits grow BATCH_SIZE out (forwarded content) []
    (by simp) (fun l hl => (forwarded_good content l hl).1)
    (by simp only [List.nil_append, BATCH_SIZE]; omega)
  rw [dedupe_to_writer_eq, show join_lines [] = [] from rfl] at *
  rw [h, final_write_eq_pending]
  rfl

/-- C1: when the stripped non-empty lines of the input carry at most 1024 distinct
fingerprints, none of them 0, and the expected output is at most 4095 bytes long, the
bytes `dedupe_to_writer` writes are the stripped non-empty lines in input order, without
those whose fingerprint is that of an earlier line, joined by single `\n` bytes with no
trailing newline. -/
theorem dedupe_to_writer_expected (grow : Nat → Nat → Nat) (content out : List Byte)
    (hcard : ((stripped_lines content).map fast_hash).toFinset.card ≤ 1024)
    (hnz : ∀ l, l ∈ stripped_lines content → fast_hash l ≠ 0)
    (hlen : (expected_output content).length ≤ 4095) :
    dedupe_to_writer grow (some content) out = (true, out ++ expected_output content) := by
  have hf := forwarded_eq_first content hcard hnz
  rw [expected_output, ← hf] at hlen ⊢
  exact dedupe_to_writer_fits grow content out hlen

/-- Witness for C1: the lines "apple", "apple ", "banana", "apple" give "apple\nbanana". -/
theorem dedupe_to_writer_expected_witness :
    dedupe_to_writer (fun _ n => n)
        (some [97, 112, 112, 108, 101, 10, 97, 112, 112, 108, 101, 32, 10,
          98, 97, 110, 97, 110, 97, 10, 97, 112, 112, 108, 101]) []
      = (true, [] ++ expected_output [97, 112, 112, 108, 101, 10, 97, 112, 112, 108, 101, 32, 10,
          98, 97, 110, 97, 110, 97, 10, 97, 112, 112, 108, 101]) ∧
    expected_output [97, 112, 112, 108, 101, 10, 97, 112, 112, 108, 101, 32, 10,
          98, 97, 110, 97, 110, 97, 10, 97, 112, 112, 108, 101]
      = [97, 112, 112, 108, 101, 10, 98, 97, 110, 97, 110, 97] :=
  ⟨dedupe_to_writer_expected _ _ [] (by decide) (by decide) (by decide), by decide⟩

/-! ## Reading back lines -/

theorem getlines_from_append :
    ∀ (a cur rest : List Byte), (10 : Byte) ∉ a →
      getlines_from cur (a ++ rest) = getlines_from (a.reverse ++ cur) rest := by
  intro a
  induction a with
  | nil => intro cur rest _; rfl
  | cons c t ih =>
    intro cur rest h
    have hc : c ≠ 10 := fun he => h (by rw [he]; exact List.mem_cons_self _ _)
    rw [List.cons_append, getlines_from, if_neg hc,
      ih (c :: cur) rest (fun hm => h (List.mem_cons_of_mem _ hm))]
    simp

theorem getlines_single (a : List Byte) (hn : (10 : Byte) ∉ a) (hne : a ≠ []) :
    getlines a = [a] := by
  have h := getlines_from_append a [] [] hn
  rw [List.append_nil, List.append_nil] at h
  rw [getlines, h, getlines_from, if_neg (by simpa using hne), List.reverse_reverse]

theorem getlines_cons_line (a rest : List Byte) (hn : (10 : Byte) ∉ a) :
    getlines (a ++ 10 :: rest) = a :: getlines rest := by
  rw [getlines, getlines_from_append a [] _ hn, getlines_from, if_pos rfl, List.append_nil,
    List.reverse_reverse]
  rfl

theorem getlines_join_lines :
    ∀ (F : List (List Byte)), (∀ l, l ∈ F → GoodLine l) → getlines (join_lines F) = F := by
  intro F
  induction F with
  | nil => intro _; rfl
  | cons l t ih =>
    intro hg
    have hl := hg l (List.mem_cons_self _ _)
    cases t with
    | nil => exact getlines_single l hl.2.1 hl.1
    | cons y t =>
      rw [join_lines_cons l _ (List.cons_ne_nil _ _), getlines_cons_line l _ hl.2.1,
        ih (fun x hx => hg x (List.mem_cons_of_mem _ hx))]

theorem strip_of_good (l : List Byte) (h : GoodLine l) : strip l = l := by
  apply (List.rdropWhile_eq_self_iff).mpr
  intro hl
  have := h.2.2 (l.getLast hl) (List.getLast?_eq_getLast _ hl)
  simp [this]

theorem strip_lines_of_good :
    ∀ (F : List (List Byte)), (∀ l, l ∈ F → GoodLine l) → strip_lines F = F := by
  intro F
  induction F with
  | nil => intro _; rfl
  | cons l t ih =>
    intro hg
    have hl := hg l (List.mem_cons_self _ _)
    have hs : strip l ≠ [] := by rw [strip_of_good l hl]; exact hl.1
    rw [strip_lines_cons l t hs, strip_of_good l hl,
      ih (fun x hx => hg x (List.mem_cons_of_mem _ hx))]

/-! ## Replaying the forwarded lines -/

theorem insert_loop_false (s : FixedHashSet) (h : Nat) :
    ∀ (fuel idx : Nat), (s.insert_loop h fuel idx).1 = false →
      (s.insert_loop h fuel idx).2 = s := by
  intro fuel
  induction fuel with
  | zero => intro idx hf; exact absurd hf (by simp [FixedHashSet.insert_loop])
  | succ f ih =>
    intro idx hf
    rw [FixedHashSet.insert_loop] at hf ⊢
    split at hf
    · exact absurd hf (by simp)
    · rename_i h0
      rw [if_neg h0]
      split at hf
      · rename_i h1
        rw [if_pos h1]
      · rename_i h1
        rw [if_neg h1]
        exact ih _ hf

/-- An `insert` that reports a duplicate leaves the table as it was. -/
theorem insert_false_unchanged (s : FixedHashSet) (h : Nat) (hf : (s.insert h).1 = false) :
    (s.insert h).2 = s :=
  insert_loop_false s h _ _ hf

/-- The forwarded lines, fed again to the same starting table, are all forwarded. -/
theorem forward_lines_replay :
    ∀ (ls : List (List Byte)) (s : FixedHashSet),
      forward_lines s (forward_lines s ls) = forward_lines s ls := by
  intro ls
  induction ls with
  | nil => intro s; rfl
  | cons l t ih =>
    intro s
    by_cases hr : (s.insert (fingerprint l)).1 = true
    · rw [forward_lines, if_pos hr, forward_lines, if_pos hr, ih]
    · have hu := insert_false_unchanged s _ (by simpa using hr)
      rw [forward_lines, if_neg hr, hu]
      exact ih s

theorem first_by_fingerprint_nodup :
    ∀ (ls : List (List Byte)) (E : List Int),
      ((first_by_fingerprint E ls).map fast_hash).Nodup ∧
        ∀ x, x ∈ (first_by_fingerprint E ls).map fast_hash → x ∉ E := by
  intro ls
  induction ls with
  | nil => intro E; simp [first_by_fingerprint]
  | cons l t ih =>
    intro E
    rw [first_by_fingerprint]
    split
    · exact ih E
    · rename_i hE
      obtain ⟨h1, h2⟩ := ih (fast_hash l :: E)
      refine ⟨?_, ?_⟩
      · rw [List.map_cons, List.nodup_cons]
        exact ⟨fun hm => h2 _ hm (List.mem_cons_self _ _), h1⟩
      · intro x hx
        rw [List.map_cons] at hx
        rcases List.mem_cons.mp hx with rfl | hx
        · exact hE
        · exact fun hm => h2 x hx (List.mem_cons_of_mem _ hm)

/-- C3 (amended): when the lines a pass forwards, joined by `\n`, are at most 4095 bytes
long (no batch is flushed inside the loop), a second pass over the output of the first
yields the same bytes; the lines of that output are the forwarded lines; and when
moreover the stripped non-empty lines carry at most 1024 distinct fingerprints, none of
them 0, no two lines of the output have the same fingerprint. -/
theorem dedupe_idempotent_fits (grow : Nat → Nat → Nat) (content : List Byte)
    (hlen : (join_lines (forwarded content)).length ≤ 4095) :
    dedupe_to_writer grow (some (dedupe_to_writer grow (some content) []).2) []
      = dedupe_to_writer grow (some content) [] ∧
    getlines (dedupe_to_writer grow (some content) []).2 = forwarded content ∧
    ((∀ l, l ∈ stripped_lines content → fast_hash l ≠ 0) →
      ((stripped_lines content).map fast_hash).toFinset.card ≤ 1024 →
      ((getlines (dedupe_to_writer grow (some content) []).2).map fast_hash).Nodup) := by
  have hgood := forwarded_good content
  have h1 := dedupe_to_writer_fits grow content [] hlen
  have hlines : getlines (join_lines (forwarded content)) = forwarded content :=
    getlines_join_lines _ hgood
  have hfw : forwarded (join_lines (forwarded content)) = forwarded content := by
    rw [forwarded, stripped_lines, hlines, strip_lines_of_good _ hgood]
    exact forward_lines_replay _ _
  rw [h1]
  simp only [List.nil_append]
  refine ⟨?_, hlines, ?_⟩
  · have h2 := dedupe_to_writer_fits grow (join_lines (forwarded content)) []
      (by rw [hfw]; exact hlen)
    rw [h2, hfw, List.nil_append]
  · intro hnz hcard
    rw [hlines, forwarded_eq_first content hcard hnz]
    exact (first_by_fingerprint_nodup _ _).1

set_option maxRecDepth 100000 in
/-- Witness for C3 (amended): the lines "apple", "apple ", "banana", "apple". -/
theorem dedupe_idempotent_fits_witness :
    dedupe_to_writer (fun _ n => n)
        (some (dedupe_to_writer (fun _ n => n)
          (some [97, 112, 112, 108, 101, 10, 97, 112, 112, 108, 101, 32, 10,
            98, 97, 110, 97, 110, 97, 10, 97, 112, 112, 108, 101]) []).2) []
      = dedupe_to_writer (fun _ n => n)
          (some [97, 112, 112, 108, 101, 10, 97, 112, 112, 108, 101, 32, 10,
            98, 97, 110, 97, 110, 97, 10, 97, 112, 112, 108, 101]) [] :=
  (dedupe_idempotent_fits (fun _ n => n)
    [97, 112, 112, 108, 101, 10, 97, 112, 112, 108, 101, 32, 10,
      98, 97, 110, 97, 110, 97, 10, 97, 112, 112, 108, 101] (by decide)).1

set_option maxRecDepth 100000 in
/-- C3 as stated fails: the line `D5 6B B9 53 42 87 08 36` has fingerprint 0, a pass
over that line twice forwards both copies, and so the output of one pass holds two
lines with the same fingerprint. -/
theorem dedupe_output_repeats_fingerprint :
    dedupe_to_writer (fun _ n => n)
        (some [0xD5, 0x6B, 0xB9, 0x53, 0x42, 0x87, 0x08, 0x36, 10,
          0xD5, 0x6B, 0xB9, 0x53, 0x42, 0x87, 0x08, 0x36]) []
      = (true, [0xD5, 0x6B, 0xB9, 0x53, 0x42, 0x87, 0x08, 0x36, 10,
          0xD5, 0x6B, 0xB9, 0x53, 0x42, 0x87, 0x08, 0x36]) ∧
    (getlines [0xD5, 0x6B, 0xB9, 0x53, 0x42, 0x87, 0x08, 0x36, 10,
          0xD5, 0x6B, 0xB9, 0x53, 0x42, 0x87, 0x08, 0x36]).map fast_hash = [0, 0] := by
  decide

/-! ## Lines sharing their first eight bytes -/

theorem final_write_single (grow : Nat → Nat → Nat) (cap : Nat) (out l : List Byte) :
    final_write ([l].foldl (batch_line grow) ({ data := [], capacity := cap }, out))
      = out ++ l := by
  rw [final_write_eq_pending]
  by_cases hf : l.length + 1 > cap
  · simp [batch_line, pending, hf, CharVector.append]
  · simp [batch_line, pending, hf, CharVector.append]

/-- C7 (amended): for two lines `a` and `b` whose stripped forms are at least 8 bytes
long and share their first 8 bytes, and whose fingerprint is not 0, a pass over the
two-line input `a`, `b` treats `b` as a duplicate and writes only the stripped `a`. -/
theorem shared_prefix_collapses (grow : Nat → Nat → Nat) (a b out : List Byte)
    (ha : (10 : Byte) ∉ a) (hb : (10 : Byte) ∉ b)
    (hla : 8 ≤ (strip a).length) (hlb : 8 ≤ (strip b).length)
    (h8 : (strip a).take 8 = (strip b).take 8) (hnz : fast_hash (strip a) ≠ 0) :
    dedupe_to_writer grow (some (a ++ 10 :: b)) out = (true, out ++ strip a) := by
  have hsa : strip a ≠ [] := fun h => by rw [h] at hla; simp at hla
  have hsb : strip b ≠ [] := fun h => by rw [h] at hlb; simp at hlb
  have hbne : b ≠ [] := fun h => hsb (by rw [h]; rfl)
  have hfp : fast_hash (strip b) = fast_hash (strip a) := by
    rw [fast_hash_eq_fnv (strip b), fast_hash_eq_fnv (strip a), h8]
  have hstr : stripped_lines (a ++ 10 :: b) = [strip a, strip b] := by
    rw [stripped_lines, getlines_cons_line a b ha, getlines_single b hb hbne,
      strip_lines_cons a _ hsa, strip_lines_cons b _ hsb]
    rfl
  have hfw : forwarded (a ++ 10 :: b) = [strip a] := by
    rw [forwarded_eq_first, hstr]
    · simp [first_by_fingerprint, hfp]
    · rw [hstr]
      exact le_trans (List.toFinset_card_le _) (by simp)
    · intro l hl
      rw [hstr] at hl
      simp only [List.mem_cons, List.mem_singleton, List.not_mem_nil, or_false] at hl
      rcases hl with rfl | rfl
      · exact hnz
      · rw [hfp]; exact hnz
  rw [dedupe_to_writer_eq, hfw, final_write_single]

set_option maxRecDepth 100000 in
/-- Witness for C7 (amended): ten `a` bytes, then ten `a` bytes followed by "xyz". -/
theorem shared_prefix_collapses_witness :
    dedupe_to_writer (fun _ n => n)
        (some ([97, 97, 97, 97, 97, 97, 97, 97, 97, 97] ++
          10 :: [97, 97, 97, 97, 97, 97, 97, 97, 97, 97, 120, 121, 122])) []
      = (true, [] ++ strip [97, 97, 97, 97, 97, 97, 97, 97, 97, 97]) :=
  shared_prefix_collapses (fun _ n => n) [97, 97, 97, 97, 97, 97, 97, 97, 97, 97]
    [97, 97, 97, 97, 97, 97, 97, 97, 97, 97, 120, 121, 122] []
    (by decide) (by decide) (by decide) (by decide) (by decide) (by decide)

set_option maxRecDepth 100000 in
/-- C7 as stated fails: the lines `D5 6B B9 53 42 87 08 36 41` and
`D5 6B B9 53 42 87 08 36 42` share their first 8 bytes, whose fingerprint is 0, and a
pass over the two writes both lines. -/
theorem shared_prefix_zero_not_collapsed :
    (strip [0xD5, 0x6B, 0xB9, 0x53, 0x42, 0x87, 0x08, 0x36, 0x41]).take 8
      = (strip [0xD5, 0x6B, 0xB9, 0x53, 0x42, 0x87, 0x08, 0x36, 0x42]).take 8 ∧
    8 ≤ (strip [0xD5, 0x6B, 0xB9, 0x53, 0x42, 0x87, 0x08, 0x36, 0x41]).length ∧
    8 ≤ (strip [0xD5, 0x6B, 0xB9, 0x53, 0x42, 0x87, 0x08, 0x36, 0x42]).length ∧
    dedupe_to_writer (fun _ n => n)
        (some ([0xD5, 0x6B, 0xB9, 0x53, 0x42, 0x87, 0x08, 0x36, 0x41] ++
          10 :: [0xD5, 0x6B, 0xB9, 0x53, 0x42, 0x87, 0x08, 0x36, 0x42])) []
      = (true, [0xD5, 0x6B, 0xB9, 0x53, 0x42, 0x87, 0x08, 0x36, 0x41, 10,
          0xD5, 0x6B, 0xB9, 0x53, 0x42, 0x87, 0x08, 0x36, 0x42]) ∧
    dedupe_to_writer (fun _ n => n)
        (some ([0xD5, 0x6B, 0xB9, 0x53, 0x42, 0x87, 0x08, 0x36, 0x41] ++
          10 :: [0xD5, 0x6B, 0xB9, 0x53, 0x42, 0x87, 0x08, 0x36, 0x42])) []
      ≠ (true, strip [0xD5, 0x6B, 0xB9, 0x53, 0x42, 0x87, 0x08, 0x36, 0x41]) := by
  decide

/-! ## A flush inside the loop -/

/-- Two forwarded lines that do not fit in the batch together: the first is flushed, the
second starts a cleared batch, and no `\n` is written between them. -/
theorem flush_joins_lines (grow : Nat → Nat → Nat) (l1 l2 : List Byte)
    (h1 : GoodLine l1) (h2 : GoodLine l2)
    (hz1 : fast_hash l1 ≠ 0) (hz2 : fast_hash l2 ≠ 0) (hd : fast_hash l2 ≠ fast_hash l1)
    (hfit1 : l1.length + 1 ≤ 4096) (hfit2 : l2.length ≤ 4096)
    (hover : l1.length + l2.length + 1 > 4096) :
    dedupe_to_writer grow (some (l1 ++ 10 :: l2)) [] = (true, l1 ++ l2) ∧
    forwarded (l1 ++ 10 :: l2) = [l1, l2] := by
  have hstr : stripped_lines (l1 ++ 10 :: l2) = [l1, l2] := by
    rw [stripped_lines, getlines_cons_line l1 _ h1.2.1, getlines_single _ h2.2.1 h2.1]
    exact strip_lines_of_good [l1, l2] (by
      intro l hl
      simp only [List.mem_cons, List.mem_singleton, List.not_mem_nil, or_false] at hl
      rcases hl with rfl | rfl
      · exact h1
      · exact h2)
  have hfw : forwarded (l1 ++ 10 :: l2) = [l1, l2] := by
    rw [forwarded_eq_first, hstr]
    · simp [first_by_fingerprint, hd]
    · rw [hstr]
      exact le_trans (List.toFinset_card_le _) (by simp)
    · intro l hl
      rw [hstr] at hl
      simp only [List.mem_cons, List.mem_singleton, List.not_mem_nil, or_false] at hl
      rcases hl with rfl | rfl
      · exact hz1
      · exact hz2
  refine ⟨?_, hfw⟩
  have hn1 : ¬ (l1.length + 1 > 4096) := by omega
  have hl1 : l1.length ≤ 4096 := by omega
  have hne1 : l1 ≠ [] := h1.1
  rw [dedupe_to_writer_eq, hfw, final_write_eq_pending]
  simp [batch_line, pending, CharVector.append, BATCH_SIZE, hn1, hl1, hover, hfit2, hne1]

theorem replicate_b_good : GoodLine (List.replicate 4095 (98 : Byte)) := by
  refine ⟨?_, ?_, ?_⟩
  · intro h
    have := congrArg List.length h
    rw [List.length_replicate] at this
    exact absurd this (by decide)
  · rw [List.mem_replicate]; decide
  · intro c hc
    have hm := List.mem_of_mem_getLast? hc
    rw [List.mem_replicate] at hm
    rw [hm.2]
    decide

theorem letter_a_good : GoodLine [97] := by
  refine ⟨by decide, by decide, ?_⟩
  intro c hc
  have : c = 97 := by simpa using hc.symm
  rw [this]
  decide

theorem fast_hash_replicate_b :
    fast_hash (List.replicate 4095 (98 : Byte)) = 6665089167262862117 := by
  rw [fast_hash_eq_fnv, List.take_replicate]
  decide

/-- C2 fails on the code: for the input "a" followed by a line of 4095 "b" bytes, both
lines are forwarded, the second one triggers a flush, and the bytes written are "a"
directly followed by the 4095 "b" bytes, with no `\n` between the two lines. -/
theorem flush_drops_separator (grow : Nat → Nat → Nat) :
    dedupe_to_writer grow (some ([97] ++ 10 :: List.replicate 4095 98)) []
      = (true, [97] ++ List.replicate 4095 98) ∧
    forwarded ([97] ++ 10 :: List.replicate 4095 98) = [[97], List.replicate 4095 98] ∧
    join_lines [[97], List.replicate 4095 98] = [97] ++ 10 :: List.replicate 4095 98 ∧
    dedupe_to_writer grow (some ([97] ++ 10 :: List.replicate 4095 98)) []
      ≠ (true, join_lines (forwarded ([97] ++ 10 :: List.replicate 4095 98))) := by
  have h := flush_joins_lines grow [97] (List.replicate 4095 98)
    letter_a_good replicate_b_good (by decide)
    (by rw [fast_hash_replicate_b]; decide) (by rw [fast_hash_replicate_b]; decide)
    (by decide) (by rw [List.length_replicate]; decide)
    (by rw [List.length_replicate]; decide)
  refine ⟨h.1, h.2, rfl, ?_⟩
  rw [h.1, h.2]
  intro he
  have := congrArg (fun p => p.2.length) he
  simp only [join_lines, List.length_append, List.length_cons, List.length_replicate,
    List.length_nil] at this
  omega

/-! ## The temporary path -/

theorem filename_suffix (p : PathName) : filename p <:+ p := by
  unfold filename
  rw [← List.reverse_prefix, List.reverse_reverse]
  exact List.takeWhile_prefix _

theorem extension_suffix_filename (p : PathName) : extension p <:+ filename p := by
  unfold extension
  split
  · exact List.nil_suffix
  · split
    · rename_i hmem
      split
      · exact List.nil_suffix
      · have hsplit := List.takeWhile_append_dropWhile (fun c => decide (c ≠ (46 : Byte)))
          (filename p).reverse
        have hmem' : (46 : Byte) ∈ (filename p).reverse := List.mem_reverse.mpr hmem
        cases hd : List.dropWhile (fun c => decide (c ≠ (46 : Byte))) (filename p).reverse with
        | nil =>
          exfalso
          rw [hd, List.append_nil] at hsplit
          rw [← hsplit] at hmem'
          have := List.mem_takeWhile_imp hmem'
          simp at this
        | cons a rest =>
          have ha : a = 46 := by
            have h1 := List.head_dropWhile_not (fun c => decide (c ≠ (46 : Byte)))
              (filename p).reverse (by rw [hd]; exact List.cons_ne_nil _ _)
            simp only [hd, List.head_cons] at h1
            simpa using h1
          subst ha
          refine ⟨rest.reverse, ?_⟩
          have h2 := congrArg List.reverse hsplit
          rw [hd, List.reverse_append, List.reverse_cons, List.reverse_reverse,
            List.append_assoc] at h2
          exact h2
    · exact List.nil_suffix

theorem extension_suffix (p : PathName) : extension p <:+ p :=
  (extension_suffix_filename p).trans (filename_suffix p)

/-- The temporary path is the source path itself exactly when the source path already
has the extension `.tmp`. -/
theorem temp_path_eq_iff (p : PathName) :
    temp_path p = p ↔ extension p = [46, 116, 109, 112] := by
  obtain ⟨b, hb⟩ := extension_suffix p
  have hl := congrArg List.length hb
  rw [List.length_append] at hl
  have htake : p.take (p.length - (extension p).length) = b := by
    rw [show p.length - (extension p).length = b.length by omega]
    calc p.take b.length = (b ++ extension p).take b.length := by rw [hb]
      _ = b := List.take_left' rfl
  unfold temp_path replace_extension
  rw [htake]
  generalize extension p = e at hb
  subst hb
  have hcond : ¬ (([46, 116, 109, 112] : PathName) ≠ [] ∧
      ([46, 116, 109, 112] : PathName).head? ≠ some 46) := fun h => h.2 rfl
  rw [if_neg hcond, List.append_nil]
  constructor
  · intro h
    exact (List.append_cancel_left h).symm
  · intro h
    rw [h]

theorem dedupe_to_writer_nil (grow : Nat → Nat → Nat) :
    dedupe_to_writer grow (some []) [] = (true, []) := by
  rw [dedupe_to_writer_eq, final_write_eq_pending]
  rfl

/-- The steps of `atomic_dedupe` on a non-empty regular file whose temporary file can be
opened. -/
theorem atomic_dedupe_run (grow : Nat → Nat → Nat) (fs : FileSystem) (p : PathName)
    (c : List Byte) (hc : fs.entries p = some (Entry.file c)) (hne : c ≠ [])
    (hw : fs.can_write (temp_path p) = true)
    (hd : fs.entries (temp_path p) ≠ some Entry.directory) :
    atomic_dedupe grow fs p
      = if (dedupe_to_writer grow ((fs.store (temp_path p) []).open_read p) []).1 = false then
          (false, fs.store (temp_path p) [])
        else if ((fs.store (temp_path p) []).store (temp_path p)
            (dedupe_to_writer grow ((fs.store (temp_path p) []).open_read p) []).2).can_rename
            (temp_path p) p = true then
          (true, ((fs.store (temp_path p) []).store (temp_path p)
            (dedupe_to_writer grow ((fs.store (temp_path p) []).open_read p) []).2).renamed
            (temp_path p) p)
        else
          (false, (fs.store (temp_path p) []).store (temp_path p)
            (dedupe_to_writer grow ((fs.store (temp_path p) []).open_read p) []).2) := by
  have hlen : c.length ≠ 0 := fun h => hne (List.length_eq_zero.mp h)
  have hcond : ¬ ((!fs.exists_path p || fs.is_directory p || fs.file_size p == 0) = true) := by
    simp [FileSystem.exists_path, FileSystem.is_directory, FileSystem.file_size, hc, hlen]
  have hopen : fs.open_trunc (temp_path p) = some (fs.store (temp_path p) []) := by
    simp [FileSystem.open_trunc, hw, hd]
  unfold atomic_dedupe
  rw [if_neg hcond, hopen]

theorem atomic_dedupe_tmp_source (grow : Nat → Nat → Nat) (rename_ok : Bool) :
    (atomic_dedupe grow (tmp_source_fs rename_ok) [97, 46, 116, 109, 112]).1 = rename_ok ∧
    (atomic_dedupe grow (tmp_source_fs rename_ok) [97, 46, 116, 109, 112]).2.entries
      [97, 46, 116, 109, 112] = some (Entry.file []) := by
  have ht : temp_path [97, 46, 116, 109, 112] = [97, 46, 116, 109, 112] := by decide
  have hc : (tmp_source_fs rename_ok).entries [97, 46, 116, 109, 112]
      = some (Entry.file [120]) := rfl
  have hr : (FileSystem.store (tmp_source_fs rename_ok) [97, 46, 116, 109, 112] []).open_read
      [97, 46, 116, 109, 112] = some [] := rfl
  rw [atomic_dedupe_run grow _ _ [120] hc (by decide) rfl (by rw [ht, hc]; decide), ht, hr,
    dedupe_to_writer_nil]
  cases rename_ok
  · exact ⟨rfl, rfl⟩
  · exact ⟨rfl, rfl⟩

/-- C18 fails on the code: the temporary path of `data.tmp` (and of `a.tmp`) is the
source path itself, and `atomic_dedupe` on the file `a.tmp` holding `x`, with every step
succeeding, returns success and leaves the source empty: opening the temporary file
truncated the source before it was read. -/
theorem temp_path_of_tmp_is_source (grow : Nat → Nat → Nat) :
    temp_path [100, 97, 116, 97, 46, 116, 109, 112] = [100, 97, 116, 97, 46, 116, 109, 112] ∧
    temp_path [97, 46, 116, 109, 112] = [97, 46, 116, 109, 112] ∧
    (tmp_source_fs true).entries [97, 46, 116, 109, 112] = some (Entry.file [120]) ∧
    (atomic_dedupe grow (tmp_source_fs true) [97, 46, 116, 109, 112]).1 = true ∧
    (atomic_dedupe grow (tmp_source_fs true) [97, 46, 116, 109, 112]).2.entries
      [97, 46, 116, 109, 112] = some (Entry.file []) :=
  ⟨by decide, by decide, by decide, (atomic_dedupe_tmp_source grow true).1,
    (atomic_dedupe_tmp_source grow true).2⟩

/-! ## The rewrite transaction -/

/-- C11 fails on the code: for the source path `a.tmp` holding `x`, in a state where the
rename fails, `atomic_dedupe` reports failure but the source is left empty, because the
temporary path is the source path and opening it truncated the source. -/
theorem rename_failure_loses_tmp_source (grow : Nat → Nat → Nat) :
    (tmp_source_fs false).entries [97, 46, 116, 109, 112] = some (Entry.file [120]) ∧
    (tmp_source_fs false).can_rename (temp_path [97, 46, 116, 109, 112])
      [97, 46, 116, 109, 112] = false ∧
    (atomic_dedupe grow (tmp_source_fs false) [97, 46, 116, 109, 112]).1 = false ∧
    (atomic_dedupe grow (tmp_source_fs false) [97, 46, 116, 109, 112]).2.entries
      [97, 46, 116, 109, 112] = some (Entry.file []) :=
  ⟨by decide, rfl, (atomic_dedupe_tmp_source grow false).1,
    (atomic_dedupe_tmp_source grow false).2⟩

/-- When the temporary path differs from the source path and the rename step is reached
and fails, `atomic_dedupe` reports failure and every path other than the temporary one,
the source included, names what it named before. -/
theorem atomic_dedupe_rename_failure (grow : Nat → Nat → Nat) (fs : FileSystem)
    (p : PathName) (c : List Byte)
    (hc : fs.entries p = some (Entry.file c)) (hne : c ≠ [])
    (hw : fs.can_write (temp_path p) = true)
    (hd : fs.entries (temp_path p) ≠ some Entry.directory)
    (hr : fs.can_read p = true)
    (hren : fs.can_rename (temp_path p) p = false)
    (hdiff : temp_path p ≠ p) :
    (atomic_dedupe grow fs p).1 = false ∧
    (atomic_dedupe grow fs p).2.entries p = some (Entry.file c) ∧
    ∀ q, q ≠ temp_path p → (atomic_dedupe grow fs p).2.entries q = fs.entries q := by
  have hread : (fs.store (temp_path p) []).open_read p = some c := by
    simp [FileSystem.open_read, FileSystem.store, hc, hr, Ne.symm hdiff]
  have hdw : (dedupe_to_writer grow (some c) []).1 = true := by rw [dedupe_to_writer_eq]
  have hres : atomic_dedupe grow fs p
      = (false, (fs.store (temp_path p) []).store (temp_path p)
          (dedupe_to_writer grow (some c) []).2) := by
    rw [atomic_dedupe_run grow fs p c hc hne hw hd, hread, if_neg (by rw [hdw]; simp),
      if_neg (by
        show ¬ fs.can_rename (temp_path p) p = true
        rw [hren]; simp)]
  rw [hres]
  refine ⟨rfl, ?_, ?_⟩
  · simp [FileSystem.store, Ne.symm hdiff, hc]
  · intro q hq
    simp [FileSystem.store, hq]

/-- Whenever `atomic_dedupe` reports failure, every path other than the temporary one
names what it named before. -/
theorem atomic_dedupe_failure_frame (grow : Nat → Nat → Nat) (fs : FileSystem)
    (p : PathName) (hf : (atomic_dedupe grow fs p).1 = false) :
    ∀ q, q ≠ temp_path p → (atomic_dedupe grow fs p).2.entries q = fs.entries q := by
  intro q hq
  unfold atomic_dedupe at hf ⊢
  by_cases hcond : (!fs.exists_path p || fs.is_directory p || fs.file_size p == 0) = true
  · rw [if_pos hcond] at hf
    simp at hf
  · rw [if_neg hcond] at hf ⊢
    cases hopen : fs.open_trunc (temp_path p) with
    | none => rfl
    | some fs1 =>
      have hfs1 : fs1 = fs.store (temp_path p) [] := by
        unfold FileSystem.open_trunc at hopen
        split at hopen
        · exact (Option.some.inj hopen).symm
        · simp at hopen
      rw [hopen] at hf
      subst hfs1
      simp only at hf ⊢
      by_cases h1 : (dedupe_to_writer grow ((fs.store (temp_path p) []).open_read p) []).1 = false
      · rw [if_pos h1]
        simp [FileSystem.store, hq]
      · rw [if_neg h1] at hf ⊢
        split
        · rename_i h2
          rw [if_pos h2] at hf
          simp at hf
        · simp [FileSystem.store, hq]

/-- C12: for a path that does not exist, names a directory, or names a zero-byte file,
`atomic_dedupe` returns success and leaves the whole filesystem state unchanged. -/
theorem atomic_dedupe_noop (grow : Nat → Nat → Nat) (fs : FileSystem) (p : PathName)
    (h : fs.entries p = none ∨ fs.entries p = some Entry.directory ∨
      fs.entries p = some (Entry.file [])) :
    atomic_dedupe grow fs p = (true, fs) := by
  rcases h with h | h | h <;>
    simp [atomic_dedupe, FileSystem.exists_path, FileSystem.is_directory,
      FileSystem.file_size, h]

/-- Witness for C12: the path `data.txt` in a filesystem where nothing exists. -/
theorem atomic_dedupe_noop_witness :
    atomic_dedupe (fun _ n => n) empty_fs [100, 97, 116, 97, 46, 116, 120, 116]
      = (true, empty_fs) :=
  atomic_dedupe_noop (fun _ n => n) empty_fs [100, 97, 116, 97, 46, 116, 120, 116] (Or.inl rfl)

/-! ## The constructor -/

theorem ceil_log2_from_spec (c : Nat) :
    ∀ (fuel k : Nat), c ≤ 2 ^ (k + fuel) → (∀ j, j < k → ¬ c ≤ 2 ^ j) →
      c ≤ 2 ^ ceil_log2_from c fuel k ∧ ∀ j, c ≤ 2 ^ j → ceil_log2_from c fuel k ≤ j := by
  intro fuel
  induction fuel with
  | zero =>
    intro k hk hlow
    refine ⟨hk, fun j hj => ?_⟩
    by_contra hlt
    exact hlow j (by simpa [ceil_log2_from] using hlt) hj
  | succ f ih =>
    intro k hk hlow
    rw [ceil_log2_from]
    split
    · rename_i hck
      refine ⟨hck, fun j hj => ?_⟩
      by_contra hlt
      exact hlow j (by omega) hj
    · rename_i hck
      refine ih (k + 1) (by rw [show k + 1 + f = k + (f + 1) by omega]; exact hk) ?_
      intro j hj
      rcases Nat.lt_or_ge j k with h | h
      · exact hlow j h
      · have : j = k := by omega
        rw [this]; exact hck

/-- The value `ceil_log2 c` is the least exponent `k` with `c ≤ 2 ^ k`. -/
theorem ceil_log2_spec (c : Nat) :
    c ≤ 2 ^ ceil_log2 c ∧ ∀ j, c ≤ 2 ^ j → ceil_log2 c ≤ j :=
  ceil_log2_from_spec c c 0 (by rw [Nat.zero_add]; exact le_of_lt (Nat.lt_two_pow c))
    (fun j hj => absurd hj (Nat.not_lt_zero j))

theorem ceil_log2_pow (k : Nat) : ceil_log2 (2 ^ k) = k := by
  obtain ⟨hup, hmin⟩ := ceil_log2_spec (2 ^ k)
  have h1 : k ≤ ceil_log2 (2 ^ k) := (Nat.pow_le_pow_iff_right (by norm_num)).mp hup
  have h2 : ceil_log2 (2 ^ k) ≤ k := hmin k (le_refl _)
  omega

/-- Every power of two up to `2 ^ 63` is a `double`: the conversion keeps it. -/
theorem to_double_pow (k : Nat) (hk : k ≤ 63) : to_double (2 ^ k) = 2 ^ k := by
  interval_cases k <;> decide

/-- The table built when the library returns the exponent `e < 64` and the allocation
succeeds. -/
theorem construct_eq (lg : Nat → Nat) (limit c e : Nat) (he : lg (to_double c) = e)
    (h64 : e ≤ 63) (hal : 2 ^ e ≤ limit) :
    FixedHashSet.construct lg limit c
      = some { slots_ := List.replicate (2 ^ e) 0, mask_ := 2 ^ e - 1 } := by
  unfold FixedHashSet.construct
  rw [he, Nat.one_shiftLeft, if_neg (by omega), if_neg (by omega)]

/-- C13 (amended): for every capacity hint `1 ≤ c ≤ 2 ^ 63` at which the exponent the
code computes in `double`, `ceil(log2(c))`, is the exact integer ceiling of the base-2
logarithm of `c`, and for which the table can be allocated, the constructor builds a
table whose slot count is the smallest power of two `≥ c`, with every slot 0 and the mask
equal to the slot count minus one, so that `hash & mask` is always a valid slot index.
The double computation is exact at every power of two up to `2 ^ 63` for a library whose
`log2` is exact on powers of two, and for the hint 1024 the table is the 1024-slot table
`dedupe_to_writer` starts from. -/
theorem construct_smallest_power_of_two (lg : Nat → Nat) (limit c : Nat)
    (_h1 : 1 ≤ c) (h2 : c ≤ 2 ^ 63) (hlg : lg (to_double c) = ceil_log2 c)
    (hal : 2 ^ ceil_log2 c ≤ limit) :
    (∃ s, FixedHashSet.construct lg limit c = some s ∧
      s.slots_ = List.replicate (2 ^ ceil_log2 c) 0 ∧
      s.mask_ = 2 ^ ceil_log2 c - 1 ∧
      c ≤ s.slots_.length ∧
      (∀ j, c ≤ 2 ^ j → s.slots_.length ≤ 2 ^ j) ∧
      (∀ h, h &&& s.mask_ < s.slots_.length)) ∧
    (∀ (lg2 : Nat → Nat) (limit2 k : Nat), k ≤ 63 → lg2 (2 ^ k) = k → 2 ^ k ≤ limit2 →
      FixedHashSet.construct lg2 limit2 (2 ^ k)
        = some { slots_ := List.replicate (2 ^ k) 0, mask_ := 2 ^ k - 1 }) ∧
    (∀ (lg2 : Nat → Nat) (limit2 : Nat), lg2 1024 = 10 → 1024 ≤ limit2 →
      FixedHashSet.construct lg2 limit2 1024 = some (FixedHashSet.create 1024)) ∧
    (FixedHashSet.create 1024).slots_.length = 1024 := by
  obtain ⟨hup, hmin⟩ := ceil_log2_spec c
  have hk : ceil_log2 c ≤ 63 := hmin 63 h2
  refine ⟨⟨_, construct_eq lg limit c _ hlg hk hal, rfl, rfl, ?_, ?_, ?_⟩, ?_, ?_, ?_⟩
  · rw [List.length_replicate]; exact hup
  · intro j hj
    rw [List.length_replicate]
    exact Nat.pow_le_pow_right (by norm_num) (hmin j hj)
  · intro h
    show h &&& (2 ^ ceil_log2 c - 1) < (List.replicate (2 ^ ceil_log2 c) 0).length
    rw [Nat.and_pow_two_sub_one_eq_mod, List.length_replicate]
    exact Nat.mod_lt _ (by positivity)
  · intro lg2 limit2 k hk63 hlg2 hal2
    exact construct_eq lg2 limit2 (2 ^ k) k (by rw [to_double_pow k hk63]; exact hlg2) hk63 hal2
  · intro lg2 limit2 hlg2 hal2
    rw [construct_eq lg2 limit2 1024 10 hlg2 (by decide) hal2, create_1024]
    rfl
  · rw [create_1024]
    exact List.length_replicate _ _

/-- Witness for C13 (amended): the hint 1000, a library returning the exact ceiling 10
and an allocation limit of `2 ^ 60` slots give 1024 slots. -/
theorem construct_smallest_power_of_two_witness :
    (∃ s, FixedHashSet.construct (fun d => ceil_log2 d) (2 ^ 60) 1000 = some s ∧
      s.slots_ = List.replicate (2 ^ ceil_log2 1000) 0 ∧
      s.mask_ = 2 ^ ceil_log2 1000 - 1 ∧
      1000 ≤ s.slots_.length ∧
      (∀ j, 1000 ≤ 2 ^ j → s.slots_.length ≤ 2 ^ j) ∧
      (∀ h, h &&& s.mask_ < s.slots_.length)) ∧
    ceil_log2 1000 = 10 :=
  ⟨(construct_smallest_power_of_two (fun d => ceil_log2 d) (2 ^ 60) 1000 (by decide)
    (by decide) (by decide) (by decide)).1, by decide⟩

/-- C13 as stated fails: the hint `2 ^ 63 + 1` is converted to the double `2 ^ 63`, whose
logarithm is 63, so the constructor asks for `2 ^ 63` slots, fewer than the hint: either
`resize` throws and no table is built, or the table has fewer slots than the hint. -/
theorem construct_large_hint :
    to_double (2 ^ 63 + 1) = 2 ^ 63 ∧
    (∀ (lg : Nat → Nat) (limit : Nat), lg (2 ^ 63) = 63 → limit < 2 ^ 63 →
      FixedHashSet.construct lg limit (2 ^ 63 + 1) = none) ∧
    (∀ (lg : Nat → Nat) (limit : Nat) (s : FixedHashSet), lg (2 ^ 63) = 63 →
      FixedHashSet.construct lg limit (2 ^ 63 + 1) = some s →
      s.slots_.length = 2 ^ 63 ∧ s.slots_.length < 2 ^ 63 + 1) := by
  have hd : to_double (2 ^ 63 + 1) = 2 ^ 63 := by decide
  refine ⟨hd, ?_, ?_⟩
  · intro lg limit hlg hlim
    unfold FixedHashSet.construct
    rw [hd, hlg, Nat.one_shiftLeft, if_neg (by omega), if_pos hlim]
  · intro lg limit s hlg hs
    unfold FixedHashSet.construct at hs
    rw [hd, hlg, Nat.one_shiftLeft, if_neg (by omega)] at hs
    split at hs
    · exact absurd hs (by simp)
    · have := Option.some.inj hs
      subst this
      exact ⟨List.length_replicate _ _, by rw [List.length_replicate]; norm_num⟩

/-! ## Stripping -/

theorem isspace_iff (c : Byte) :
    isspace c = true ↔ c = 32 ∨ c = 9 ∨ c = 10 ∨ c = 11 ∨ c = 12 ∨ c = 13 := by
  simp only [isspace, Bool.or_eq_true, Bool.and_eq_true, decide_eq_true_eq, Fin.ext_iff]
  constructor
  · intro h
    have : ((32 : Byte) : Nat) = 32 ∧ ((9 : Byte) : Nat) = 9 ∧ ((10 : Byte) : Nat) = 10 ∧
        ((11 : Byte) : Nat) = 11 ∧ ((12 : Byte) : Nat) = 12 ∧ ((13 : Byte) : Nat) = 13 :=
      ⟨rfl, rfl, rfl, rfl, rfl, rfl⟩
    omega
  · intro h
    have : ((32 : Byte) : Nat) = 32 ∧ ((9 : Byte) : Nat) = 9 ∧ ((10 : Byte) : Nat) = 10 ∧
        ((11 : Byte) : Nat) = 11 ∧ ((12 : Byte) : Nat) = 12 ∧ ((13 : Byte) : Nat) = 13 :=
      ⟨rfl, rfl, rfl, rfl, rfl, rfl⟩
    omega

theorem strip_append_spaces (l : List Byte) :
    l = strip l ++ (l.reverse.takeWhile isspace).reverse ∧
      ∀ c, c ∈ (l.reverse.takeWhile isspace).reverse → isspace c = true := by
  refine ⟨?_, fun c hc => List.mem_takeWhile_imp (List.mem_reverse.mp hc)⟩
  have h := congrArg List.reverse (List.takeWhile_append_dropWhile isspace l.reverse)
  rw [List.reverse_append, List.reverse_reverse] at h
  exact h.symm

theorem strip_goodLine_last (l : List Byte) (hs : strip l ≠ []) :
    ∀ c, (strip l).getLast? = some c → isspace c = false := by
  intro c hc
  have h1 := List.rdropWhile_last_not isspace l hs
  rw [List.getLast?_eq_getLast _ hs] at hc
  have : (strip l).getLast hs = c := Option.some.inj hc
  rw [← this]
  simpa using h1

theorem strip_last_not_space (l : List Byte) :
    ∀ c, (strip l).getLast? = some c → isspace c = false := by
  intro c hc
  by_cases hs : strip l = []
  · rw [hs] at hc
    simp at hc
  · exact (strip_goodLine_last l hs) c hc

/-- C14: the stripped line `s = strip l` is the prefix of `l` left when the maximal
suffix of whitespace bytes (space, `\t`, `\n`, `\v`, `\f`, `\r`) is removed: `l = s ++ w`
with `w` all whitespace, `s` is empty or ends in a non-whitespace byte, every other such
split of `l` removes no more, stripping is idempotent, and `s` is empty exactly when `l`
is all whitespace. -/
theorem strip_spec (l : List Byte) :
    (∃ w, l = strip l ++ w ∧ ∀ c, c ∈ w → isspace c = true) ∧
    (∀ c, (strip l).getLast? = some c → isspace c = false) ∧
    (∀ s w, l = s ++ w → (∀ c, c ∈ w → isspace c = true) → strip l <+: s) ∧
    strip (strip l) = strip l ∧
    (strip l = [] ↔ ∀ c, c ∈ l → isspace c = true) ∧
    (∀ c : Byte, isspace c = true ↔ c = 32 ∨ c = 9 ∨ c = 10 ∨ c = 11 ∨ c = 12 ∨ c = 13) := by
  obtain ⟨hw, hall⟩ := strip_append_spaces l
  refine ⟨⟨_, hw, hall⟩, strip_last_not_space l, ?_, strip_idempotent l,
    List.rdropWhile_eq_nil_iff, isspace_iff⟩
  intro s w hl hwsp
  have heq : strip l ++ (l.reverse.takeWhile isspace).reverse = s ++ w := by rw [← hw, hl]
  rcases List.append_eq_append_iff.mp heq with ⟨a, ha, _⟩ | ⟨c, hc, hwc⟩
  · exact ⟨a, ha.symm⟩
  · by_cases hcn : c = []
    · rw [hcn, List.append_nil] at hc
      rw [hc]
    · exfalso
      have hlast : (strip l).getLast? = some (c.getLast hcn) := by
        rw [hc, List.getLast?_append_of_ne_nil _ hcn, List.getLast?_eq_getLast _ hcn]
      have h1 := strip_last_not_space l _ hlast
      have h2 := hwsp (c.getLast hcn) (by rw [hwc]; exact List.mem_append_left _ (List.getLast_mem hcn))
      rw [h1] at h2
      exact Bool.noConfusion h2

/-! ## What an insert can change -/

theorem insert_loop_slots (s : FixedHashSet) (h : Nat) :
    ∀ (fuel idx : Nat), (s.insert_loop h fuel idx).2 = s ∨
      ∃ i, (s.insert_loop h fuel idx).2 = { s with slots_ := s.slots_.set i h } := by
  intro fuel
  induction fuel with
  | zero => intro idx; exact Or.inr ⟨idx, rfl⟩
  | succ f ih =>
    intro idx
    rw [FixedHashSet.insert_loop]
    split
    · exact Or.inr ⟨idx, rfl⟩
    · split
      · exact Or.inl rfl
      · exact ih _

/-- An insert leaves the table alone or stores the fingerprint in one slot. -/
theorem insert_slots (s : FixedHashSet) (h : Nat) :
    (s.insert h).2 = s ∨ ∃ i, (s.insert h).2 = { s with slots_ := s.slots_.set i h } :=
  insert_loop_slots s h _ _

theorem insert_length (s : FixedHashSet) (h : Nat) :
    (s.insert h).2.slots_.length = s.slots_.length := by
  rcases insert_slots s h with e | ⟨i, e⟩
  · rw [e]
  · rw [e]; exact List.length_set _ _ _

theorem insert_mask (s : FixedHashSet) (h : Nat) : (s.insert h).2.mask_ = s.mask_ := by
  rcases insert_slots s h with e | ⟨i, e⟩
  · rw [e]
  · rw [e]

theorem insert_occupied (s : FixedHashSet) (h : Nat) (hh : h ≠ 0) (p : Nat)
    (hp : s.slots_.getD p 0 ≠ 0) : (s.insert h).2.slots_.getD p 0 ≠ 0 := by
  rcases insert_slots s h with e | ⟨i, e⟩
  · rw [e]; exact hp
  · rw [e]; exact getD_set_ne_zero _ _ _ _ hp hh

theorem insert_all_length : ∀ (hs : List Nat) (s : FixedHashSet),
    (insert_all s hs).slots_.length = s.slots_.length := by
  intro hs
  induction hs with
  | nil => intro s; rfl
  | cons h t ih => intro s; rw [insert_all, ih, insert_length]

theorem insert_all_mask : ∀ (hs : List Nat) (s : FixedHashSet),
    (insert_all s hs).mask_ = s.mask_ := by
  intro hs
  induction hs with
  | nil => intro s; rfl
  | cons h t ih => intro s; rw [insert_all, ih, insert_mask]

theorem insert_all_occupied : ∀ (hs : List Nat) (s : FixedHashSet),
    (∀ h, h ∈ hs → h ≠ 0) → ∀ p, s.slots_.getD p 0 ≠ 0 →
      (insert_all s hs).slots_.getD p 0 ≠ 0 := by
  intro hs
  induction hs with
  | nil => intro s _ p hp; exact hp
  | cons h t ih =>
    intro s hnz p hp
    rw [insert_all]
    exact ih _ (fun x hx => hnz x (List.mem_cons_of_mem _ hx)) p
      (insert_occupied s h (hnz h (List.mem_cons_self _ _)) p hp)

/-- C15 (amended): every insert leaves the number of slots unchanged, and an insert of a
nonzero fingerprint never turns an occupied slot into an empty one, so over any sequence
of inserts of nonzero fingerprints the occupied slot positions only grow. -/
theorem insert_keeps_occupied (s : FixedHashSet) (hs : List Nat)
    (hnz : ∀ h, h ∈ hs → h ≠ 0) :
    (∀ h, (s.insert h).2.slots_.length = s.slots_.length) ∧
    (∀ h, h ≠ 0 → ∀ p, s.slots_.getD p 0 ≠ 0 → (s.insert h).2.slots_.getD p 0 ≠ 0) ∧
    (insert_all s hs).slots_.length = s.slots_.length ∧
    (∀ p, s.slots_.getD p 0 ≠ 0 → (insert_all s hs).slots_.getD p 0 ≠ 0) :=
  ⟨insert_length s, fun h hh p hp => insert_occupied s h hh p hp, insert_all_length hs s,
    insert_all_occupied hs s hnz⟩

/-- Witness for C15 (amended): the full two-slot table `[1, 3]` and the inserts 5, 7. -/
theorem insert_keeps_occupied_witness :
    (insert_all ⟨[1, 3], 1⟩ [5, 7]).slots_.length = (⟨[1, 3], 1⟩ : FixedHashSet).slots_.length ∧
    (∀ p, (⟨[1, 3], 1⟩ : FixedHashSet).slots_.getD p 0 ≠ 0 →
      (insert_all ⟨[1, 3], 1⟩ [5, 7]).slots_.getD p 0 ≠ 0) :=
  (insert_keeps_occupied ⟨[1, 3], 1⟩ [5, 7] (by decide)).2.2

/-- C15 as stated fails: on the full table `[1, 3]` (mask 1), `insert(0)` probes both
slots and then stores 0 in slot 0, which held 1: an occupied slot becomes empty. -/
theorem insert_zero_empties_slot :
    FixedHashSet.insert ⟨[1, 3], 1⟩ 0 = (true, ⟨[0, 3], 1⟩) ∧
    (⟨[1, 3], 1⟩ : FixedHashSet).slots_.getD 0 0 ≠ 0 ∧
    (FixedHashSet.insert ⟨[1, 3], 1⟩ 0).2.slots_.getD 0 0 = 0 := by
  decide

/-! ## The bounded batch -/

/-- When the test of line 80 fires and the line fits the capacity, the batch is written
out and cleared, and the line starts the new batch. -/
theorem batch_line_flush (grow : Nat → Nat → Nat) (bo : CharVector × List Byte)
    (l : List Byte) (hf : bo.1.data.length + l.length + 1 > bo.1.capacity)
    (hl : l.length ≤ bo.1.capacity) :
    batch_line grow bo l = ({ data := l, capacity := bo.1.capacity }, bo.2 ++ bo.1.data) := by
  obtain ⟨⟨data, cap⟩, out⟩ := bo
  simp only at hf hl
  simp [batch_line, CharVector.append, hf, hl]

theorem batch_inv_step (grow : Nat → Nat → Nat) (bo : CharVector × List Byte)
    (ls : List (List Byte)) (l : List Byte) (hI : BatchInv bo ls) (hne : l ≠ [])
    (hlen : l.length ≤ 4095) : BatchInv (batch_line grow bo l) (ls ++ [l]) := by
  obtain ⟨⟨data, cap⟩, out⟩ := bo
  obtain ⟨hcap, hsize, flushed, current, hout, hdata, hls, hfl, hcur⟩ := hI
  simp only at hcap hsize hout hdata
  subst hcap
  by_cases hf : data.length + l.length + 1 > 4096
  · rw [batch_line_flush grow _ l hf (by simp only; omega)]
    refine ⟨rfl, by simp only; omega, flushed ++ [current], [l], ?_, rfl, ?_, ?_, ?_⟩
    · simp [hout, hdata]
    · simp [← hls]
    · intro g hg
      rcases List.mem_append.mp hg with h | h
      · exact hfl g h
      · simp only [List.mem_singleton] at h
        rw [h, ← hdata]; exact hsize
    · intro x hx
      simp only [List.mem_singleton] at hx
      rw [hx]; exact hne
  · by_cases hd : data = []
    · have hcn : current = [] := join_lines_eq_nil current hcur (by rw [← hdata]; exact hd)
      subst hd
      have h2 : ¬ (l.length + 1 > 4096) := by omega
      have h3 : l.length ≤ 4096 := by omega
      have hstep : batch_line grow ({ data := [], capacity := 4096 }, out) l
          = ({ data := l, capacity := 4096 }, out) := by
        simp [batch_line, CharVector.append, h2, h3]
      rw [hstep]
      refine ⟨rfl, h3, flushed, [l], hout, rfl, ?_, hfl, ?_⟩
      · rw [← hls, hcn, List.append_nil]
      · intro x hx
        simp only [List.mem_singleton] at hx
        rw [hx]; exact hne
    · have hcn : current ≠ [] := by
        intro h
        rw [h] at hdata
        exact hd hdata
      have h3 : data.length + 1 ≤ 4096 := by omega
      have h4 : data.length + 1 + l.length ≤ 4096 := by omega
      have hstep : batch_line grow ({ data := data, capacity := 4096 }, out) l
          = ({ data := data ++ 10 :: l, capacity := 4096 }, out) := by
        simp [batch_line, CharVector.append, hf, hd, h3, h4]
      rw [hstep]
      refine ⟨rfl, by simp only [List.length_append, List.length_cons]; omega,
        flushed, current ++ [l], hout, ?_, ?_, hfl, ?_⟩
      · show data ++ 10 :: l = join_lines (current ++ [l])
        rw [join_lines_append current [l] hcn (List.cons_ne_nil _ _), hdata]
        rfl
      · rw [← hls, List.append_assoc]
      · intro x hx
        rcases List.mem_append.mp hx with h | h
        · exact hcur x h
        · simp only [List.mem_singleton] at h
          rw [h]; exact hne

theorem batch_inv_foldl (grow : Nat → Nat → Nat) :
    ∀ (more : List (List Byte)) (bo : CharVector × List Byte) (ls : List (List Byte)),
      BatchInv bo ls → (∀ l, l ∈ more → l ≠ [] ∧ l.length ≤ 4095) →
      BatchInv (more.foldl (batch_line grow) bo) (ls ++ more) := by
  intro more
  induction more with
  | nil => intro bo ls hI _; simpa using hI
  | cons l t ih =>
    intro bo ls hI hm
    have hl := hm l (List.mem_cons_self _ _)
    have := ih _ _ (batch_inv_step grow bo ls l hI hl.1 hl.2)
      (fun x hx => hm x (List.mem_cons_of_mem _ hx))
    rw [List.foldl_cons]
    simpa using this

theorem mem_strip_lines_take (raws : List (List Byte)) (n : Nat) (l : List Byte)
    (h : l ∈ strip_lines (raws.take n)) : l ∈ strip_lines raws := by
  simp only [strip_lines, List.mem_filter, List.mem_map] at h ⊢
  obtain ⟨⟨raw, hraw, he⟩, hne⟩ := h
  exact ⟨⟨raw, List.mem_of_mem_take hraw, he⟩, hne⟩

/-- C16: when every stripped line of the input is at most 4095 bytes long, at every point
of the pass (after any number `n` of input lines) the batch holds at most 4096 bytes and
its capacity is 4096; the stream holds the flushed batches one after the other and the
batch the pending lines joined by `\n`, the flushed groups followed by the pending lines
being exactly the lines forwarded so far (nothing written twice or lost); and whenever
the test of line 80 fires the batch is written out and cleared first. -/
theorem batch_bounded (grow : Nat → Nat → Nat) (content : List Byte)
    (hshort : ∀ l, l ∈ stripped_lines content → l.length ≤ 4095) (n : Nat) :
    (state_after grow content n).batch.data.length ≤ 4096 ∧
    (state_after grow content n).batch.capacity = 4096 ∧
    (∃ (flushed : List (List (List Byte))) (current : List (List Byte)),
      (state_after grow content n).out = (flushed.map join_lines).flatten ∧
      (state_after grow content n).batch.data = join_lines current ∧
      flushed.flatten ++ current
        = forward_lines (FixedHashSet.create 1024) (strip_lines ((getlines content).take n)) ∧
      ∀ g, g ∈ flushed → (join_lines g).length ≤ 4096) ∧
    (∀ (bo : CharVector × List Byte) (l : List Byte),
      bo.1.data.length + l.length + 1 > bo.1.capacity → l.length ≤ bo.1.capacity →
      batch_line grow bo l = ({ data := l, capacity := bo.1.capacity }, bo.2 ++ bo.1.data)) := by
  have hinit : BatchInv ({ data := [], capacity := BATCH_SIZE }, []) [] :=
    ⟨rfl, by simp, [], [], rfl, rfl, rfl, by simp, by simp⟩
  have hfw : ∀ l, l ∈ forward_lines (FixedHashSet.create 1024)
      (strip_lines ((getlines content).take n)) → l ≠ [] ∧ l.length ≤ 4095 := by
    intro l hl
    have h1 := (forward_lines_sublist _ _).subset hl
    have h2 := mem_strip_lines_take _ n l h1
    exact ⟨(stripped_lines_good content l h2).1, hshort l h2⟩
  have hI := batch_inv_foldl grow _ _ [] hinit hfw
  rw [List.nil_append] at hI
  have hst : state_after grow content n
      = { seen := insert_all (FixedHashSet.create 1024)
            ((strip_lines ((getlines content).take n)).map fingerprint),
          batch := ((forward_lines (FixedHashSet.create 1024)
            (strip_lines ((getlines content).take n))).foldl (batch_line grow)
            ({ data := [], capacity := BATCH_SIZE }, [])).1,
          out := ((forward_lines (FixedHashSet.create 1024)
            (strip_lines ((getlines content).take n))).foldl (batch_line grow)
            ({ data := [], capacity := BATCH_SIZE }, [])).2 } := by
    rw [state_after, foldl_dedupe_step]
    rfl
  obtain ⟨hcap, hsize, flushed, current, hout, hdata, hls, hfl, _⟩ := hI
  rw [hst]
  exact ⟨hsize, hcap, ⟨flushed, current, hout, hdata, hls, hfl⟩,
    fun bo l hf hl => batch_line_flush grow bo l hf hl⟩

/-- Witness for C16: the lines "apple", "apple ", "banana", "apple", after three lines. -/
theorem batch_bounded_witness :
    (state_after (fun _ n => n)
      [97, 112, 112, 108, 101, 10, 97, 112, 112, 108, 101, 32, 10,
        98, 97, 110, 97, 110, 97, 10, 97, 112, 112, 108, 101] 3).batch.data.length ≤ 4096 :=
  (batch_bounded (fun _ n => n)
    [97, 112, 112, 108, 101, 10, 97, 112, 112, 108, 101, 32, 10,
      98, 97, 110, 97, 110, 97, 10, 97, 112, 112, 108, 101] (by decide) 3).1

/-! ## First occurrences -/

theorem insert_loop_false_mem (s : FixedHashSet) (h : Nat) :
    ∀ (fuel idx : Nat), (s.insert_loop h fuel idx).1 = false → h ∈ s.slots_ ∧ h ≠ 0 := by
  intro fuel
  induction fuel with
  | zero => intro idx hf; exact absurd hf (by simp [FixedHashSet.insert_loop])
  | succ f ih =>
    intro idx hf
    rw [FixedHashSet.insert_loop] at hf
    split at hf
    · exact absurd hf (by simp)
    · rename_i h0
      split at hf
      · rename_i h1
        have hne : h ≠ 0 := fun he => h0 (by rw [h1, he])
        exact ⟨mem_of_getD_eq _ _ h h1 hne, hne⟩
      · exact ih _ hf

/-- An `insert` reports a duplicate only for a nonzero fingerprint the table holds. -/
theorem insert_false_mem (s : FixedHashSet) (h : Nat) (hf : (s.insert h).1 = false) :
    h ∈ s.slots_ ∧ h ≠ 0 :=
  insert_loop_false_mem s h _ _ hf

theorem insert_mem_slots (s : FixedHashSet) (h v : Nat) (hv : v ∈ (s.insert h).2.slots_) :
    v ∈ s.slots_ ∨ v = h := by
  rcases insert_slots s h with e | ⟨i, e⟩
  · rw [e] at hv; exact Or.inl hv
  · rw [e] at hv; exact List.mem_or_eq_of_mem_set hv

theorem fresh_slots_zero (n v : Nat) (hv : v ∈ (FixedHashSet.fresh n).slots_) : v = 0 :=
  List.eq_of_mem_replicate hv

theorem insert_results_false :
    ∀ (fps : List Nat) (s : FixedHashSet) (E : List Nat),
      (∀ v, v ∈ s.slots_ → v ≠ 0 → v ∈ E) →
      ∀ (i : Nat) (hi : i < fps.length), (insert_results s fps).getD i true = false →
        fps[i] ∈ E ∨ fps[i] ∈ fps.take i := by
  intro fps
  induction fps with
  | nil => intro s E _ i hi; simp at hi
  | cons h t ih =>
    intro s E hI i hi hf
    cases i with
    | zero =>
      simp only [insert_results, List.getD_cons_zero] at hf
      obtain ⟨hm, hne⟩ := insert_false_mem s h hf
      exact Or.inl (hI h hm hne)
    | succ i =>
      simp only [insert_results, List.getD_cons_succ] at hf
      have hI' : ∀ v, v ∈ (s.insert h).2.slots_ → v ≠ 0 → v ∈ h :: E := by
        intro v hv hv0
        rcases insert_mem_slots s h v hv with h1 | h1
        · exact List.mem_cons_of_mem _ (hI v h1 hv0)
        · rw [h1]; exact List.mem_cons_self _ _
      have := ih (s.insert h).2 (h :: E) hI' i (by simpa using hi) hf
      simp only [List.getElem_cons_succ, List.take_succ_cons, List.mem_cons] at this ⊢
      tauto

theorem first_sublist_forward :
    ∀ (ls : List (List Byte)) (s : FixedHashSet) (EL : List (List Byte)),
      (∀ v, v ∈ s.slots_ → v ≠ 0 → v ∈ EL.map fingerprint) →
      List.Sublist (first_by_fingerprint (EL.map fast_hash) ls) (forward_lines s ls) := by
  intro ls
  induction ls with
  | nil => intro s EL _; exact List.Sublist.slnil
  | cons l t ih =>
    intro s EL hI
    rw [first_by_fingerprint, forward_lines]
    by_cases hE : fast_hash l ∈ EL.map fast_hash
    · rw [if_pos hE]
      have hI' : ∀ v, v ∈ (s.insert (fingerprint l)).2.slots_ → v ≠ 0 →
          v ∈ EL.map fingerprint := by
        intro v hv hv0
        rcases insert_mem_slots s _ v hv with h1 | h1
        · exact hI v h1 hv0
        · rw [h1]; exact (mem_map_fingerprint_iff l EL).mpr hE
      split
      · exact (ih _ EL hI').cons l
      · exact ih _ EL hI'
    · rw [if_neg hE]
      have ht : (s.insert (fingerprint l)).1 = true := by
        by_contra hf
        obtain ⟨hm, hne⟩ := insert_false_mem s _ (by simpa using hf)
        exact hE ((mem_map_fingerprint_iff l EL).mp (hI _ hm hne))
      rw [if_pos ht]
      have hI' : ∀ v, v ∈ (s.insert (fingerprint l)).2.slots_ → v ≠ 0 →
          v ∈ (l :: EL).map fingerprint := by
        intro v hv hv0
        rcases insert_mem_slots s _ v hv with h1 | h1
        · exact List.mem_cons_of_mem _ (hI v h1 hv0)
        · rw [h1]; exact List.mem_cons_self _ _
      exact (ih _ (l :: EL) hI').cons₂ l

theorem mem_first_by_fingerprint :
    ∀ (pre : List (List Byte)) (E : List Int) (l : List Byte) (post : List (List Byte)),
      fast_hash l ∉ E → (∀ x, x ∈ pre → fast_hash x ≠ fast_hash l) →
      l ∈ first_by_fingerprint E (pre ++ l :: post) := by
  intro pre
  induction pre with
  | nil =>
    intro E l post hE _
    rw [List.nil_append, first_by_fingerprint, if_neg hE]
    exact List.mem_cons_self _ _
  | cons x t ih =>
    intro E l post hE hpre
    have hx := hpre x (List.mem_cons_self _ _)
    have ht : ∀ y, y ∈ t → fast_hash y ≠ fast_hash l :=
      fun y hy => hpre y (List.mem_cons_of_mem _ hy)
    rw [List.cons_append, first_by_fingerprint]
    split
    · exact ih E l post hE ht
    · refine List.mem_cons_of_mem _ (ih _ l post ?_ ht)
      intro hm
      rcases List.mem_cons.mp hm with h | h
      · exact hx h.symm
      · exact hE h

/-- C17: on a fresh table of any size, whatever the sequence of inserts (saturating or
not), an insert returns `false` only if the same fingerprint was passed to an earlier
insert; hence for every input the lines `dedupe_to_writer` forwards contain, in order,
the first stripped non-empty line carrying each fingerprint. -/
theorem first_occurrence_never_lost :
    (∀ (n : Nat) (fps : List Nat) (i : Nat) (hi : i < fps.length),
      (insert_results (FixedHashSet.fresh n) fps).getD i true = false →
        fps[i] ∈ fps.take i) ∧
    (∀ content : List Byte,
      List.Sublist (first_by_fingerprint [] (stripped_lines content)) (forwarded content)) ∧
    (∀ (content : List Byte) (pre : List (List Byte)) (l : List Byte)
      (post : List (List Byte)), stripped_lines content = pre ++ l :: post →
      (∀ x, x ∈ pre → fast_hash x ≠ fast_hash l) → l ∈ forwarded content) := by
  have hfresh : ∀ (n : Nat) (E : List Nat) (v : Nat),
      v ∈ (FixedHashSet.fresh n).slots_ → v ≠ 0 → v ∈ E :=
    fun n E v hv hv0 => absurd (fresh_slots_zero n v hv) hv0
  have hsub : ∀ content : List Byte,
      List.Sublist (first_by_fingerprint [] (stripped_lines content)) (forwarded content) := by
    intro content
    rw [forwarded, create_1024]
    exact first_sublist_forward _ _ [] (hfresh _ _)
  refine ⟨?_, hsub, ?_⟩
  · intro n fps i hi hf
    rcases insert_results_false fps _ [] (hfresh n []) i hi hf with h | h
    · simp at h
    · exact h
  · intro content pre l post hs hpre
    refine (hsub content).subset ?_
    rw [hs]
    exact mem_first_by_fingerprint pre [] l post (by simp) hpre

/-! ## Inserting the same fingerprint twice -/

/-- On a well-formed table, a second `insert` of the same nonzero fingerprint right after
the first reports a duplicate and changes nothing. -/
theorem insert_twice_core (k : Nat) (s : FixedHashSet) (h : Nat)
    (hl : s.slots_.length = 2 ^ k) (hm : s.mask_ = 2 ^ k - 1) (hh : h ≠ 0) :
    (s.insert h).2.insert h = (false, (s.insert h).2) := by
  have hpos : 0 < 2 ^ k := by positivity
  have hhome : h % 2 ^ k < 2 ^ k := Nat.mod_lt _ hpos
  have hsecond : ∀ (p d : Nat), p = (h % 2 ^ k + d) % 2 ^ k → d < 2 ^ k →
      (∀ j, j < d → s.slots_.getD ((h % 2 ^ k + j) % 2 ^ k) 0 ≠ 0) →
      ({ s with slots_ := s.slots_.set p h } : FixedHashSet).insert h
        = (false, { s with slots_ := s.slots_.set p h }) := by
    intro p d hp hd hch
    have hplt : p < s.slots_.length := by rw [hp, hl]; exact Nat.mod_lt _ hpos
    rw [FixedHashSet.insert, mask_index _ k h hm]
    show FixedHashSet.insert_loop _ h (s.slots_.set p h).length (h % 2 ^ k) = _
    rw [List.length_set, hl]
    refine insert_loop_found { s with slots_ := s.slots_.set p h } h k hm d (2 ^ k)
      (h % 2 ^ k) hd hhome ?_ ?_
    · intro j hj
      show (s.slots_.set p h).getD ((h % 2 ^ k + j) % 2 ^ k) 0 ≠ 0
      rcases Nat.lt_or_ge j d with hlt | hge
      · exact getD_set_ne_zero _ _ _ _ (hch j hlt) hh
      · have : j = d := le_antisymm hj hge
        rw [this, ← hp, getD_set_eq _ _ _ hplt]
        exact hh
    · show (s.slots_.set p h).getD ((h % 2 ^ k + d) % 2 ^ k) 0 = h
      rw [← hp, getD_set_eq _ _ _ hplt]
  by_cases hex : ∃ d, d < 2 ^ k ∧ (s.slots_.getD ((h % 2 ^ k + d) % 2 ^ k) 0 = 0 ∨
      s.slots_.getD ((h % 2 ^ k + d) % 2 ^ k) 0 = h)
  · have hspec := Nat.find_spec hex
    have hmin : ∀ j, j < Nat.find hex →
        s.slots_.getD ((h % 2 ^ k + j) % 2 ^ k) 0 ≠ 0 ∧
        s.slots_.getD ((h % 2 ^ k + j) % 2 ^ k) 0 ≠ h := by
      intro j hj
      have hn := Nat.find_min hex hj
      have hjlt : j < 2 ^ k := lt_trans hj hspec.1
      constructor
      · intro h0; exact hn ⟨hjlt, Or.inl h0⟩
      · intro h1; exact hn ⟨hjlt, Or.inr h1⟩
    generalize Nat.find hex = d0 at hspec hmin
    obtain ⟨hd0, hor⟩ := hspec
    by_cases hz : s.slots_.getD ((h % 2 ^ k + d0) % 2 ^ k) 0 = 0
    · have hfirst : s.insert h
          = (true, { s with slots_ := s.slots_.set ((h % 2 ^ k + d0) % 2 ^ k) h }) := by
        rw [FixedHashSet.insert, mask_index s k h hm, hl]
        exact insert_loop_empty s h k hm d0 (2 ^ k) (h % 2 ^ k) hd0 hhome hmin hz
      rw [hfirst]
      exact hsecond _ d0 rfl hd0 (fun j hj => (hmin j hj).1)
    · have hv : s.slots_.getD ((h % 2 ^ k + d0) % 2 ^ k) 0 = h := by
        rcases hor with h0 | h1
        · exact absurd h0 hz
        · exact h1
      have hfirst : s.insert h = (false, s) := by
        rw [FixedHashSet.insert, mask_index s k h hm, hl]
        refine insert_loop_found s h k hm d0 (2 ^ k) (h % 2 ^ k) hd0 hhome ?_ hv
        intro j hj
        rcases Nat.lt_or_ge j d0 with hlt | hge
        · exact (hmin j hlt).1
        · have : j = d0 := le_antisymm hj hge
          rw [this]; exact hz
      rw [hfirst]
      exact hfirst
  · have hall : ∀ j, j < 2 ^ k → s.slots_.getD ((h % 2 ^ k + j) % 2 ^ k) 0 ≠ 0 ∧
        s.slots_.getD ((h % 2 ^ k + j) % 2 ^ k) 0 ≠ h := by
      intro j hj
      constructor
      · intro h0; exact hex ⟨j, hj, Or.inl h0⟩
      · intro h1; exact hex ⟨j, hj, Or.inr h1⟩
    have hfirst : s.insert h
        = (true, { s with slots_ := s.slots_.set (h % 2 ^ k) h }) := by
      rw [FixedHashSet.insert, mask_index s k h hm, hl,
        insert_loop_full s h k hm (2 ^ k) (h % 2 ^ k) hhome hall, Nat.add_mod_right,
        Nat.mod_mod]
    rw [hfirst]
    exact hsecond _ 0 (by rw [Nat.add_zero, Nat.mod_mod]) hpos
      (fun j hj => absurd hj (Nat.not_lt_zero j))

theorem forward_lines_adjacent (k : Nat) (s : FixedHashSet) (l1 l2 : List Byte)
    (t : List (List Byte)) (hl : s.slots_.length = 2 ^ k) (hm : s.mask_ = 2 ^ k - 1)
    (hfp : fingerprint l2 = fingerprint l1) (hnz : fingerprint l1 ≠ 0) :
    forward_lines s (l1 :: l2 :: t) = forward_lines s (l1 :: t) := by
  have h2 := insert_twice_core k s (fingerprint l1) hl hm hnz
  have hskip : forward_lines (s.insert (fingerprint l1)).2 (l2 :: t)
      = forward_lines (s.insert (fingerprint l1)).2 t := by
    rw [forward_lines, hfp, h2]
    simp
  rw [forward_lines, hskip, forward_lines]

theorem forward_lines_append :
    ∀ (a b : List (List Byte)) (s : FixedHashSet),
      forward_lines s (a ++ b)
        = forward_lines s a ++ forward_lines (insert_all s (a.map fingerprint)) b := by
  intro a
  induction a with
  | nil => intro b s; rfl
  | cons l t ih =>
    intro b s
    rw [List.cons_append, forward_lines, forward_lines, ih]
    split
    · rfl
    · rfl

/-- C19: on every table (power-of-two size, matching mask; any contents, full or not)
and for every nonzero fingerprint `h`, a second `insert(h)` right after a first returns
`false` and leaves the table exactly as the first call left it; hence of two adjacent
lines with the same nonzero fingerprint the second is never forwarded: the pass forwards
what it would forward without that line. -/
theorem insert_twice (k : Nat) (s : FixedHashSet) (h : Nat)
    (hl : s.slots_.length = 2 ^ k) (hm : s.mask_ = 2 ^ k - 1) (hh : h ≠ 0) :
    (s.insert h).2.insert h = (false, (s.insert h).2) ∧
    (∀ (l1 l2 : List Byte) (t : List (List Byte)), fingerprint l1 = h → fingerprint l2 = h →
      forward_lines s (l1 :: l2 :: t) = forward_lines s (l1 :: t)) ∧
    (∀ (content : List Byte) (pre : List (List Byte)) (l1 l2 : List Byte)
      (post : List (List Byte)), stripped_lines content = pre ++ l1 :: l2 :: post →
      fast_hash l2 = fast_hash l1 → fast_hash l1 ≠ 0 →
      forwarded content = forward_lines (FixedHashSet.create 1024) (pre ++ l1 :: post)) := by
  refine ⟨insert_twice_core k s h hl hm hh, ?_, ?_⟩
  · intro l1 l2 t h1 h2
    exact forward_lines_adjacent k s l1 l2 t hl hm (by rw [h1, h2]) (by rw [h1]; exact hh)
  · intro content pre l1 l2 post hs hfp hnz
    rw [forwarded, hs, forward_lines_append, forward_lines_append]
    congr 1
    refine forward_lines_adjacent 10 _ l1 l2 post ?_ ?_
      ((fingerprint_eq_iff l2 l1).mpr hfp)
      (fun h0 => hnz ((fingerprint_eq_zero_iff l1).mp h0))
    · rw [insert_all_length, create_1024]
      exact List.length_replicate _ _
    · rw [insert_all_mask, create_1024]
      rfl

/-- Witness for C19: the full two-slot table `[1, 3]` and the fingerprint 5. -/
theorem insert_twice_witness :
    (FixedHashSet.insert ⟨[1, 3], 1⟩ 5).2.insert 5
      = (false, (FixedHashSet.insert ⟨[1, 3], 1⟩ 5).2) :=
  (insert_twice 1 ⟨[1, 3], 1⟩ 5 rfl rfl (by decide)).1

/-! ## The sentinel is reachable -/

set_option maxRecDepth 100000 in
theorem forwarded_sentinel_twice :
    forwarded [0xD5, 0x6B, 0xB9, 0x53, 0x42, 0x87, 0x08, 0x36, 10,
        0xD5, 0x6B, 0xB9, 0x53, 0x42, 0x87, 0x08, 0x36]
      = [[0xD5, 0x6B, 0xB9, 0x53, 0x42, 0x87, 0x08, 0x36],
         [0xD5, 0x6B, 0xB9, 0x53, 0x42, 0x87, 0x08, 0x36]] := by
  decide

/-- C20: the 8 bytes `D5 6B B9 53 42 87 08 36` have `fast_hash` 0, and a pass over an
input made of that line twice forwards both copies and writes both. -/
theorem sentinel_reachable (grow : Nat → Nat → Nat) :
    fast_hash [0xD5, 0x6B, 0xB9, 0x53, 0x42, 0x87, 0x08, 0x36] = 0 ∧
    forwarded [0xD5, 0x6B, 0xB9, 0x53, 0x42, 0x87, 0x08, 0x36, 10,
        0xD5, 0x6B, 0xB9, 0x53, 0x42, 0x87, 0x08, 0x36]
      = [[0xD5, 0x6B, 0xB9, 0x53, 0x42, 0x87, 0x08, 0x36],
         [0xD5, 0x6B, 0xB9, 0x53, 0x42, 0x87, 0x08, 0x36]] ∧
    dedupe_to_writer grow
        (some [0xD5, 0x6B, 0xB9, 0x53, 0x42, 0x87, 0x08, 0x36, 10,
          0xD5, 0x6B, 0xB9, 0x53, 0x42, 0x87, 0x08, 0x36]) []
      = (true, [0xD5, 0x6B, 0xB9, 0x53, 0x42, 0x87, 0x08, 0x36, 10,
          0xD5, 0x6B, 0xB9, 0x53, 0x42, 0x87, 0x08, 0x36]) := by
  refine ⟨by decide, forwarded_sentinel_twice, ?_⟩
  rw [dedupe_to_writer_fits grow _ [] (by rw [forwarded_sentinel_twice]; decide),
    forwarded_sentinel_twice]
  rfl
